import Mathlib

/-!
# Shallow embedding of the `lfucache` package

This file embeds the O(1) LFU cache from the repository (the authoritative
revision: `Cache`, `New`, `Resize`, `Insert`, `Delete`, `Access`, `EvictIf`,
`evict`, `deleteNode`, `lfu`, `newFrequencyNode`, `deleteFrequencyNode`,
`moveNodeToFn`, `items0`, `numFrequencyNodes`) as pure Lean functions, and
proves the specification claims about it.

Modelling choices:
* The two-level doubly linked pointer structure (frequency nodes each holding
  a doubly linked node list) is represented functionally: the frequency list
  is a `List frequencyNode` ordered head (the permanent usage-0 sentinel)
  first, and each frequency node holds its item list as a `List node`
  ordered head first (`head` = first element, `tail` = last element, matching
  the source's `fn.head` / `fn.tail` fields).  The `index` map and the
  `parent`/`prev`/`next` pointers are derivable from this representation;
  key lookup is embedded as a search through the buckets.
* Go `interface{}` keys/values are instantiated at `Nat` keys and `Int`
  values; the structure is polymorphic in neither in the source's logic.
* Go `int` counters that the code compares (`length`, `capacity`) are `Int`;
  the statistics counters, which are only ever incremented, are `Nat`.
* Channel sends are modelled as a message trace: each mutating operation
  returns, besides the new cache, the list of `(channel id, value)` sends it
  performed, in order.  `panic` (zero-sized cache at `New`, `lfu` on an empty
  cache) is modelled by `Option`: `none` is a panic.
* Go map iteration order in `EvictIf` is unspecified; `EvictIf` therefore
  takes the iteration order as an explicit `order : List Key` parameter.
-/

namespace LFU

/-- Keys (Go `interface{}` map keys, instantiated at `Nat`). -/
abbrev Key := Nat

/-- Values (Go `interface{}`, instantiated at `Int`). -/
abbrev Value := Int

/-- An eviction notification: (channel id, value sent on it). -/
abbrev Msg := Nat × Value

/-- Source `node`: one cached entry (`key`, `value`; the `parent`/`prev`/
`next` pointers are represented by the node's position in the structure). -/
structure node where
  key : Key
  value : Value
deriving Repr, DecidableEq

/-- Source `frequencyNode`: one usage level; `nodes` is the item list from
`head` (first element, oldest in tier) to `tail` (last element, most recently
moved to this tier). -/
structure frequencyNode where
  usage : Nat
  nodes : List node
deriving Repr, DecidableEq

/-- Source `Statistics` struct. -/
structure Statistics where
  LenFreq0 : Nat := 0
  Inserts : Nat := 0
  Hits : Nat := 0
  Misses : Nat := 0
  Evictions : Nat := 0
  Deletes : Nat := 0
  FreqListLen : Nat := 0
deriving Repr, DecidableEq

/-- Source `Cache` struct.  `buckets` is the frequency list starting at the
sentinel (`frequencyList` in the source); `evictedChans` holds registered
eviction channels by id. -/
structure Cache where
  capacity : Int
  length : Int
  buckets : List frequencyNode
  evictedChans : List Nat
  stats : Statistics
deriving Repr, DecidableEq

/-- Source `New`: panics (`none`) iff `capacity == 0`; otherwise a cache with
the single sentinel frequency node of usage 0. -/
def New (capacity : Int) : Option Cache :=
  if capacity = 0 then none
  else some
    { capacity := capacity
      length := 0
      buckets := [⟨0, []⟩]
      evictedChans := []
      stats := {} }

/-- The map lookup `c.index[key]`: the node with the given key, if present.
(The source maintains `index` as a hash map kept in sync with the node
structure; here it is derived by searching the buckets.) -/
def findNode (c : Cache) (k : Key) : Option node :=
  c.buckets.findSome? (fun fn => fn.nodes.find? (fun n => n.key == k))

/-- Source `lfu`: walk the frequency list from the sentinel and return the
`head` of the first frequency node with a non-empty item list; `none` models
the `panic(errEmptyLFU)` on an empty cache. -/
def lfu (c : Cache) : Option node :=
  c.buckets.findSome? (fun fn => fn.nodes.head?)

/-- The bucket-surgery part of source `deleteNode`: unlink the (unique) node
with key `k` from the frequency node containing it, and delete that frequency
node when its item list became empty and its usage is not 0. -/
def deleteNodeIn : List frequencyNode → Key → List frequencyNode
  | [], _ => []
  | fn :: rest, k =>
    if fn.nodes.any (fun n => n.key == k) then
      let ns := fn.nodes.eraseP (fun n => n.key == k)
      if fn.usage ≠ 0 ∧ ns = [] then rest
      else ⟨fn.usage, ns⟩ :: rest
    else fn :: deleteNodeIn rest k

/-- Source `deleteNode`: remove the node with key `k` from the structure and
the index, and decrement `length`. -/
def deleteNode (c : Cache) (k : Key) : Cache :=
  { c with buckets := deleteNodeIn c.buckets k, length := c.length - 1 }

/-- The sends performed by source `evict`: the evicted value, once per
registered channel, in registration order. -/
def evictMsgs (c : Cache) (v : Value) : List Msg :=
  c.evictedChans.map (fun ch => (ch, v))

/-- Source `evict`: notify every registered channel of the node's value, then
`deleteNode` it and increment the eviction counter. -/
def evictNode (c : Cache) (n : node) : Cache × List Msg :=
  let c' := deleteNode c n.key
  ({ c' with stats := { c'.stats with Evictions := c'.stats.Evictions + 1 } },
   evictMsgs c n.value)

/-- Source `moveNodeToFn(n, c.frequencyList)` for a freshly allocated node
(no current parent): append the node at the tail of the sentinel frequency
node's item list. -/
def pushToSentinel (bs : List frequencyNode) (n : node) : List frequencyNode :=
  match bs with
  | [] => []
  | fn :: rest => ⟨fn.usage, fn.nodes ++ [n]⟩ :: rest

/-- The tail of source `Insert` after the eviction checks: allocate the node,
index it, move it under the sentinel, bump `length` and the insert counter. -/
def insertNewNode (c : Cache) (k : Key) (v : Value) : Cache :=
  { c with
      buckets := pushToSentinel c.buckets ⟨k, v⟩
      length := c.length + 1
      stats := { c.stats with Inserts := c.stats.Inserts + 1 } }

/-- Source `Insert`: evict an existing node under the same key, then evict
`lfu` when at capacity (`none` models the `lfu` panic on an empty cache),
then insert the new node at usage 0. -/
def Insert (c : Cache) (k : Key) (v : Value) : Option (Cache × List Msg) :=
  let s1 : Cache × List Msg :=
    match findNode c k with
    | some n => evictNode c n
    | none => (c, [])
  if s1.1.length = s1.1.capacity then
    match lfu s1.1 with
    | none => none
    | some n =>
      let s2 := evictNode s1.1 n
      some (insertNewNode s2.1 k v, s1.2 ++ s2.2)
  else
    some (insertNewNode s1.1 k v, s1.2)

/-- Source `Delete`: if the key is present, `deleteNode` it and bump the
delete counter, returning `true`; otherwise do nothing and return `false`.
The middle component is the (always empty) list of channel sends: `Delete`
goes through `deleteNode`, never through `evict`. -/
def Delete (c : Cache) (k : Key) : Cache × List Msg × Bool :=
  match findNode c k with
  | some _ =>
    let c' := deleteNode c k
    ({ c' with stats := { c'.stats with Deletes := c'.stats.Deletes + 1 } },
     [], true)
  | none => (c, [], false)

/-- The bucket surgery of source `Access` on a hit of key `k`: compute
`nextUsage = parent.usage + 1`; reuse `parent.next` when its usage is exactly
`nextUsage`, otherwise splice a fresh frequency node right after `parent`
(source `newFrequencyNode`); then `moveNodeToFn` the node there — unlink it
from `parent`, delete `parent` if it became empty with usage ≠ 0, and append
the node at the target's tail. -/
def promote : List frequencyNode → Key → List frequencyNode
  | [], _ => []
  | fn :: rest, k =>
    match fn.nodes.find? (fun n => n.key == k) with
    | none => fn :: promote rest k
    | some n =>
      let ns := fn.nodes.eraseP (fun m => m.key == k)
      match rest with
      | next :: rest2 =>
        if next.usage = fn.usage + 1 then
          if fn.usage ≠ 0 ∧ ns = [] then
            ⟨next.usage, next.nodes ++ [n]⟩ :: rest2
          else
            ⟨fn.usage, ns⟩ :: ⟨next.usage, next.nodes ++ [n]⟩ :: rest2
        else
          if fn.usage ≠ 0 ∧ ns = [] then
            ⟨fn.usage + 1, [n]⟩ :: next :: rest2
          else
            ⟨fn.usage, ns⟩ :: ⟨fn.usage + 1, [n]⟩ :: next :: rest2
      | [] =>
        if fn.usage ≠ 0 ∧ ns = [] then
          [⟨fn.usage + 1, [n]⟩]
        else
          [⟨fn.usage, ns⟩, ⟨fn.usage + 1, [n]⟩]

/-- Source `Access`: on a miss bump the miss counter and return `none`; on a
hit move the node one usage level up (`promote`), bump the hit counter and
return the value. -/
def Access (c : Cache) (k : Key) : Cache × Option Value :=
  match findNode c k with
  | none =>
    ({ c with stats := { c.stats with Misses := c.stats.Misses + 1 } }, none)
  | some n =>
    ({ c with
        buckets := promote c.buckets k
        stats := { c.stats with Hits := c.stats.Hits + 1 } },
     some n.value)

/-- The `for c.length > c.capacity` loop of source `Resize`, with explicit
fuel (each iteration decrements `length`, so `length.toNat + 1` fuel always
suffices); `none` models the `lfu` panic. -/
def resizeLoop : Nat → Cache → List Msg → Option (Cache × List Msg)
  | 0, c, acc => if c.capacity < c.length then none else some (c, acc)
  | fuel + 1, c, acc =>
    if c.capacity < c.length then
      match lfu c with
      | none => none
      | some n =>
        let s := evictNode c n
        resizeLoop fuel s.1 (acc ++ s.2)
    else some (c, acc)

/-- Source `Resize`: set the new capacity, then evict `lfu` while over it. -/
def Resize (c : Cache) (capacity : Int) : Option (Cache × List Msg) :=
  resizeLoop (c.length.toNat + 1) { c with capacity := capacity } []

/-- One iteration of the source `EvictIf` range loop, at key `k`: the node is
looked up (a map entry already deleted by this very loop is not yielded, so
an absent key is skipped), tested on its value, and evicted on a match. -/
def evictIfStep (test : Value → Bool) (acc : Cache × List Msg × Nat)
    (k : Key) : Cache × List Msg × Nat :=
  match findNode acc.1 k with
  | some n =>
    if test n.value then
      let s := evictNode acc.1 n
      (s.1, acc.2.1 ++ s.2, acc.2.2 + 1)
    else acc
  | none => acc

/-- Source `EvictIf`: range over the index in the (unspecified) iteration
order `order`, evicting every node whose value passes `test`; returns the
new cache, the sends performed, and the eviction count returned to the
caller. -/
def EvictIf (c : Cache) (test : Value → Bool) (order : List Key) :
    Cache × List Msg × Nat :=
  order.foldl (evictIfStep test) (c, [], 0)

/-- Source `Len`. -/
def Len (c : Cache) : Int := c.length

/-- Source `Cap`. -/
def Cap (c : Cache) : Int := c.capacity

/-- Source `items0`: the population of the sentinel frequency node. -/
def items0 (c : Cache) : Nat :=
  match c.buckets with
  | [] => 0
  | fn :: _ => fn.nodes.length

/-- Source `numFrequencyNodes`: the length of the frequency list. -/
def numFrequencyNodes (c : Cache) : Nat := c.buckets.length

/-- Source `Statistics` method: the stored counters with the two on-demand
structural fields refreshed. -/
def statistics (c : Cache) : Statistics :=
  { c.stats with LenFreq0 := items0 c, FreqListLen := numFrequencyNodes c }

/-- Source `Evictions`: register an eviction channel. -/
def Evictions (c : Cache) (ch : Nat) : Cache :=
  { c with evictedChans := c.evictedChans ++ [ch] }

/-- Source `UnregisterEvictions`: remove the first registration of `ch`. -/
def UnregisterEvictions (c : Cache) (ch : Nat) : Cache :=
  { c with evictedChans := c.evictedChans.eraseP (fun x => x == ch) }

/-! ## Structural views and the well-formedness invariant -/

/-- All live nodes, in frequency-list order, each item list head first. -/
def allNodes : List frequencyNode → List node
  | [] => []
  | fn :: rest => fn.nodes ++ allNodes rest

/-- The keys of all live nodes. -/
def keysOf (bs : List frequencyNode) : List Key := (allNodes bs).map node.key

/-- The usage count of the bucket holding key `k`, on a bare bucket list. -/
def usageIn (bs : List frequencyNode) (k : Key) : Option Nat :=
  bs.findSome? fun fn =>
    if fn.nodes.any (fun n => n.key == k) then some fn.usage else none

/-- The item list of the bucket with usage `u` (empty if there is none), on a
bare bucket list. -/
def nodesAt (bs : List frequencyNode) (u : Nat) : List node :=
  match bs.find? (fun fn => fn.usage == u) with
  | some fn => fn.nodes
  | none => []

/-- The usage count of the bucket holding key `k`. -/
def usageOfKey (c : Cache) (k : Key) : Option Nat :=
  c.buckets.findSome? fun fn =>
    if fn.nodes.any (fun n => n.key == k) then some fn.usage else none

/-- The item list of the bucket with usage `u` (empty if there is none). -/
def bucketNodes (c : Cache) (u : Nat) : List node :=
  match c.buckets.find? (fun fn => fn.usage == u) with
  | some fn => fn.nodes
  | none => []

/-- A concrete well-formed cache used by the witness theorems: capacity 3,
keys 2 and 3 at usage 0 (2 inserted before 3), key 1 at usage 2, one
registered eviction channel with id 7.  It is the state reached from `New 3`
by `Evictions 7`, `Insert 1 10`, `Insert 2 20`, `Insert 3 30`, `Access 1`,
`Access 1`. -/
def demo1 : Cache :=
  { capacity := 3
    length := 3
    buckets := [⟨0, [⟨2, 20⟩, ⟨3, 30⟩]⟩, ⟨2, [⟨1, 10⟩]⟩]
    evictedChans := [7]
    stats := { Inserts := 3, Hits := 2 } }

/-- The sentinel invariant: the frequency list is non-empty and starts with
the usage-0 sentinel. -/
def sentinelOK (bs : List frequencyNode) : Prop :=
  bs.head?.map frequencyNode.usage = some 0

/-- Bucket usage counts are strictly increasing along the frequency list. -/
def usagesSorted (bs : List frequencyNode) : Prop :=
  (bs.map frequencyNode.usage).Pairwise (· < ·)

/-- No empty non-sentinel bucket: a frequency node of usage ≠ 0 has a
non-empty item list (the source's `check`: "empty non-head frequency node"). -/
def noEmptyNonSentinel (bs : List frequencyNode) : Prop :=
  ∀ fn ∈ bs, fn.usage ≠ 0 → fn.nodes ≠ []

/-- Live keys are pairwise distinct (the index is a map). -/
def keysNodup (bs : List frequencyNode) : Prop := (keysOf bs).Nodup

/-- Well-formedness of the bucket structure. -/
def BucketsWF (bs : List frequencyNode) : Prop :=
  sentinelOK bs ∧ usagesSorted bs ∧ noEmptyNonSentinel bs ∧ keysNodup bs

/-- Well-formedness of a cache: well-formed buckets and `length` in sync
with the actual number of live nodes (the source's `check`:
"index/numItems mismatch"). -/
def WF (c : Cache) : Prop :=
  BucketsWF c.buckets ∧ c.length = (allNodes c.buckets).length

instance : DecidablePred sentinelOK := fun bs => by
  unfold sentinelOK; infer_instance

instance : DecidablePred usagesSorted := fun bs => by
  unfold usagesSorted; infer_instance

instance : DecidablePred noEmptyNonSentinel := fun bs => by
  unfold noEmptyNonSentinel; infer_instance

instance : DecidablePred keysNodup := fun bs => by
  unfold keysNodup; infer_instance

instance : DecidablePred BucketsWF := fun bs => by
  unfold BucketsWF; infer_instance

instance : DecidablePred WF := fun c => by
  unfold WF; infer_instance

/-! ## Flattening the two-level structure -/

@[simp] theorem allNodes_nil : allNodes [] = [] := rfl

@[simp] theorem allNodes_cons (fn : frequencyNode) (rest : List frequencyNode) :
    allNodes (fn :: rest) = fn.nodes ++ allNodes rest := rfl

theorem findSome?_find?_flat (bs : List frequencyNode) (p : node → Bool) :
    (bs.findSome? fun fn => fn.nodes.find? p) = (allNodes bs).find? p := by
  induction bs with
  | nil => rfl
  | cons fn rest ih =>
    rw [List.findSome?_cons, allNodes_cons, List.find?_append, ← ih]
    cases fn.nodes.find? p <;> simp

theorem findNode_eq_find? (c : Cache) (k : Key) :
    findNode c k = (allNodes c.buckets).find? (fun n => n.key == k) :=
  findSome?_find?_flat ..

theorem head?_flat (bs : List frequencyNode) :
    (bs.findSome? fun fn => fn.nodes.head?) = (allNodes bs).head? := by
  induction bs with
  | nil => rfl
  | cons fn rest ih =>
    rw [List.findSome?_cons, allNodes_cons, List.head?_append, ← ih]
    cases fn.nodes.head? <;> simp

theorem lfu_eq_head? (c : Cache) : lfu c = (allNodes c.buckets).head? :=
  head?_flat _

theorem keysOf_eq (bs : List frequencyNode) :
    keysOf bs = (allNodes bs).map node.key := rfl

@[simp] theorem keysOf_cons (fn : frequencyNode) (rest : List frequencyNode) :
    keysOf (fn :: rest) = fn.nodes.map node.key ++ keysOf rest := by
  simp [keysOf_eq]

theorem findNode_eq_none_iff (c : Cache) (k : Key) :
    findNode c k = none ↔ k ∉ keysOf c.buckets := by
  rw [findNode_eq_find?, List.find?_eq_none, keysOf_eq]
  simp

theorem findNode_mem {c : Cache} {k : Key} {n : node}
    (h : findNode c k = some n) : n ∈ allNodes c.buckets ∧ n.key = k := by
  rw [findNode_eq_find?] at h
  refine ⟨List.mem_of_find?_eq_some h, ?_⟩
  have := List.find?_some h
  simpa using this

theorem lfu_mem {c : Cache} {n : node} (h : lfu c = some n) :
    n ∈ allNodes c.buckets := by
  rw [lfu_eq_head?] at h
  exact List.mem_of_mem_head? h

theorem lfu_isSome_of_ne_nil {c : Cache} (h : allNodes c.buckets ≠ []) :
    (lfu c).isSome := by
  rw [lfu_eq_head?, List.head?_isSome]
  exact h

/-! ## `find?` and `eraseP` on node lists with distinct keys -/

theorem eraseP_key_find?_self {l : List node} {k : Key}
    (h : (l.map node.key).Nodup) :
    (l.eraseP fun n => n.key == k).find? (fun n => n.key == k) = none := by
  induction l with
  | nil => rfl
  | cons a l ih =>
    rw [List.map_cons, List.nodup_cons] at h
    by_cases ha : a.key = k
    · rw [List.eraseP_cons_of_pos (by simp [ha])]
      rw [List.find?_eq_none]
      intro x hx hxk
      exact h.1 (by
        rw [List.mem_map]
        exact ⟨x, hx, by simp only [beq_iff_eq] at hxk; rw [hxk, ha]⟩)
    · rw [List.eraseP_cons_of_neg (by simp [ha])]
      rw [List.find?_cons_of_neg _ (by simp [ha])]
      exact ih h.2

theorem eraseP_key_find?_other {l : List node} {k k' : Key} (hkk : k' ≠ k) :
    (l.eraseP fun n => n.key == k).find? (fun n => n.key == k') =
      l.find? (fun n => n.key == k') := by
  induction l with
  | nil => rfl
  | cons a l ih =>
    by_cases ha : a.key = k
    · rw [List.eraseP_cons_of_pos (by simp [ha])]
      rw [List.find?_cons_of_neg _ (by simp [ha, hkk.symm])]
    · rw [List.eraseP_cons_of_neg (by simp [ha])]
      by_cases ha' : a.key = k'
      · rw [List.find?_cons_of_pos (l.eraseP _) (by simp [ha']),
            List.find?_cons_of_pos l (by simp [ha'])]
      · rw [List.find?_cons_of_neg (l.eraseP _) (by simp [ha']),
            List.find?_cons_of_neg l (by simp [ha'])]
        exact ih

/-! ## `deleteNodeIn` -/

theorem allNodes_deleteNodeIn (bs : List frequencyNode) (k : Key) :
    allNodes (deleteNodeIn bs k) =
      (allNodes bs).eraseP (fun n => n.key == k) := by
  induction bs with
  | nil => rfl
  | cons fn rest ih =>
    by_cases h : fn.nodes.any (fun n => n.key == k)
    · obtain ⟨n, hn, hnk⟩ := List.any_eq_true.mp h
      rw [allNodes_cons,
        List.eraseP_append_left (p := fun n => n.key == k) hnk _ hn]
      simp only [deleteNodeIn, h, if_true]
      split
      · next hc =>
        rw [hc.2]
        rfl
      · simp
    · rw [allNodes_cons, List.eraseP_append_right _
        (by simpa [List.any_eq_true] using h)]
      simp only [deleteNodeIn, h, if_false, Bool.false_eq_true, allNodes_cons, ih]

theorem usages_deleteNodeIn_sublist (bs : List frequencyNode) (k : Key) :
    List.Sublist ((deleteNodeIn bs k).map frequencyNode.usage)
      (bs.map frequencyNode.usage) := by
  induction bs with
  | nil => simp [deleteNodeIn]
  | cons fn rest ih =>
    by_cases h : fn.nodes.any (fun n => n.key == k)
    · simp only [deleteNodeIn, h, if_true]
      split
      · simp only [List.map_cons]
        exact List.sublist_cons_self fn.usage (rest.map frequencyNode.usage)
      · simp
    · simp only [deleteNodeIn, h, if_false, Bool.false_eq_true, List.map_cons]
      exact ih.cons₂ _

theorem sentinelOK_deleteNodeIn {bs : List frequencyNode} (k : Key)
    (h : sentinelOK bs) : sentinelOK (deleteNodeIn bs k) := by
  match bs with
  | [] => exact h
  | fn :: rest =>
    have hu : fn.usage = 0 := by
      simpa [sentinelOK] using h
    by_cases hc : fn.nodes.any (fun n => n.key == k)
    · simp only [deleteNodeIn, hc, if_true]
      rw [if_neg (by simp [hu])]
      simp [sentinelOK, hu]
    · simp only [deleteNodeIn, hc, if_false, Bool.false_eq_true]
      simpa [sentinelOK] using hu

theorem noEmpty_deleteNodeIn {bs : List frequencyNode} (k : Key)
    (h : noEmptyNonSentinel bs) : noEmptyNonSentinel (deleteNodeIn bs k) := by
  induction bs with
  | nil => simpa [deleteNodeIn] using h
  | cons fn rest ih =>
    have hrest : noEmptyNonSentinel rest := fun g hg => h g (by simp [hg])
    by_cases hc : fn.nodes.any (fun n => n.key == k)
    · simp only [deleteNodeIn, hc, if_true]
      split
      · exact hrest
      · next hcond =>
        intro g hg
        rcases List.mem_cons.mp hg with rfl | hg'
        · intro hu hnil
          exact hcond ⟨hu, hnil⟩
        · exact hrest g hg'
    · simp only [deleteNodeIn, hc, if_false, Bool.false_eq_true]
      intro g hg
      rcases List.mem_cons.mp hg with rfl | hg'
      · exact h g (by simp)
      · exact ih hrest g hg'

theorem usagesSorted_deleteNodeIn {bs : List frequencyNode} (k : Key)
    (h : usagesSorted bs) : usagesSorted (deleteNodeIn bs k) :=
  List.Pairwise.sublist (usages_deleteNodeIn_sublist bs k) h

theorem keysNodup_deleteNodeIn {bs : List frequencyNode} (k : Key)
    (h : keysNodup bs) : keysNodup (deleteNodeIn bs k) := by
  unfold keysNodup at *
  rw [keysOf_eq, allNodes_deleteNodeIn]
  exact List.Nodup.sublist (List.Sublist.map _ (List.eraseP_sublist _)) h

theorem bucketsWF_deleteNodeIn {bs : List frequencyNode} (k : Key)
    (h : BucketsWF bs) : BucketsWF (deleteNodeIn bs k) :=
  ⟨sentinelOK_deleteNodeIn k h.1, usagesSorted_deleteNodeIn k h.2.1,
   noEmpty_deleteNodeIn k h.2.2.1, keysNodup_deleteNodeIn k h.2.2.2⟩

theorem sentinelOK_iff {bs : List frequencyNode} :
    sentinelOK bs ↔ ∃ fn rest, bs = fn :: rest ∧ fn.usage = 0 := by
  cases bs with
  | nil => simp [sentinelOK]
  | cons fn rest =>
    constructor
    · intro h
      exact ⟨fn, rest, rfl, by simpa [sentinelOK] using h⟩
    · rintro ⟨fn', rest', heq, hu⟩
      cases heq
      simpa [sentinelOK] using hu

/-! ## Cache-level `deleteNode` and `evictNode` -/

@[simp] theorem deleteNode_buckets (c : Cache) (k : Key) :
    (deleteNode c k).buckets = deleteNodeIn c.buckets k := rfl

@[simp] theorem deleteNode_length (c : Cache) (k : Key) :
    (deleteNode c k).length = c.length - 1 := rfl

@[simp] theorem deleteNode_capacity (c : Cache) (k : Key) :
    (deleteNode c k).capacity = c.capacity := rfl

@[simp] theorem deleteNode_evictedChans (c : Cache) (k : Key) :
    (deleteNode c k).evictedChans = c.evictedChans := rfl

@[simp] theorem deleteNode_stats (c : Cache) (k : Key) :
    (deleteNode c k).stats = c.stats := rfl

@[simp] theorem evictNode_fst_buckets (c : Cache) (n : node) :
    (evictNode c n).1.buckets = deleteNodeIn c.buckets n.key := rfl

@[simp] theorem evictNode_fst_length (c : Cache) (n : node) :
    (evictNode c n).1.length = c.length - 1 := rfl

@[simp] theorem evictNode_fst_capacity (c : Cache) (n : node) :
    (evictNode c n).1.capacity = c.capacity := rfl

@[simp] theorem evictNode_fst_evictedChans (c : Cache) (n : node) :
    (evictNode c n).1.evictedChans = c.evictedChans := rfl

@[simp] theorem evictNode_fst_stats (c : Cache) (n : node) :
    (evictNode c n).1.stats =
      { c.stats with Evictions := c.stats.Evictions + 1 } := rfl

@[simp] theorem evictNode_snd (c : Cache) (n : node) :
    (evictNode c n).2 = evictMsgs c n.value := rfl

theorem mem_keysOf_of_mem {bs : List frequencyNode} {n : node}
    (h : n ∈ allNodes bs) : n.key ∈ keysOf bs := by
  rw [keysOf_eq]
  exact List.mem_map_of_mem node.key h

theorem length_allNodes_deleteNodeIn {bs : List frequencyNode} {k : Key}
    (hk : k ∈ keysOf bs) :
    (allNodes (deleteNodeIn bs k)).length + 1 = (allNodes bs).length := by
  rw [allNodes_deleteNodeIn]
  rw [keysOf_eq, List.mem_map] at hk
  obtain ⟨n, hn, hnk⟩ := hk
  rw [List.length_eraseP_of_mem hn (by simp [hnk])]
  have : 0 < (allNodes bs).length := List.length_pos_of_mem hn
  omega

theorem WF_deleteNode {c : Cache} {k : Key} (h : WF c)
    (hk : k ∈ keysOf c.buckets) : WF (deleteNode c k) := by
  refine ⟨bucketsWF_deleteNodeIn k h.1, ?_⟩
  have h2 := h.2
  have h3 := length_allNodes_deleteNodeIn hk
  simp only [deleteNode_buckets, deleteNode_length]
  omega

theorem WF_evictNode {c : Cache} {n : node} (h : WF c)
    (hn : n ∈ allNodes c.buckets) : WF (evictNode c n).1 := by
  have := WF_deleteNode h (mem_keysOf_of_mem hn)
  exact ⟨this.1, this.2⟩

/-! ## `pushToSentinel` and `insertNewNode` -/

theorem find?_append_middle_other {l₁ l₂ : List node} {n : node}
    {p : node → Bool} (h : p n = false) :
    (l₁ ++ n :: l₂).find? p = (l₁ ++ l₂).find? p := by
  rw [List.find?_append, List.find?_append,
    List.find?_cons_of_neg _ (by simp [h])]

@[simp] theorem insertNewNode_capacity (c : Cache) (k : Key) (v : Value) :
    (insertNewNode c k v).capacity = c.capacity := rfl

@[simp] theorem insertNewNode_length (c : Cache) (k : Key) (v : Value) :
    (insertNewNode c k v).length = c.length + 1 := rfl

@[simp] theorem insertNewNode_evictedChans (c : Cache) (k : Key) (v : Value) :
    (insertNewNode c k v).evictedChans = c.evictedChans := rfl

@[simp] theorem insertNewNode_stats (c : Cache) (k : Key) (v : Value) :
    (insertNewNode c k v).stats =
      { c.stats with Inserts := c.stats.Inserts + 1 } := rfl

@[simp] theorem insertNewNode_buckets (c : Cache) (k : Key) (v : Value) :
    (insertNewNode c k v).buckets = pushToSentinel c.buckets ⟨k, v⟩ := rfl

theorem allNodes_pushToSentinel {fn : frequencyNode}
    {rest : List frequencyNode} (n : node) :
    allNodes (pushToSentinel (fn :: rest) n) =
      fn.nodes ++ n :: allNodes rest := by
  simp [pushToSentinel]

theorem usages_pushToSentinel (bs : List frequencyNode) (n : node) :
    (pushToSentinel bs n).map frequencyNode.usage =
      bs.map frequencyNode.usage := by
  cases bs <;> simp [pushToSentinel]

theorem bucketsWF_pushToSentinel {bs : List frequencyNode} {n : node}
    (h : BucketsWF bs) (hk : n.key ∉ keysOf bs) :
    BucketsWF (pushToSentinel bs n) := by
  obtain ⟨fn, rest, rfl, hu⟩ := sentinelOK_iff.mp h.1
  refine ⟨?_, ?_, ?_, ?_⟩
  · simp [pushToSentinel, sentinelOK, hu]
  · unfold usagesSorted
    rw [usages_pushToSentinel]
    exact h.2.1
  · intro g hg
    simp only [pushToSentinel, List.mem_cons] at hg
    rcases hg with rfl | hg'
    · intro _ hnil
      simp at hnil
    · exact h.2.2.1 g (by simp [hg'])
  · unfold keysNodup
    rw [keysOf_eq, allNodes_pushToSentinel, List.map_append, List.map_cons]
    have hperm :
        (fn.nodes.map node.key ++ n.key :: (allNodes rest).map node.key).Perm
          (n.key :: (fn.nodes.map node.key ++ (allNodes rest).map node.key)) :=
      List.perm_middle
    refine hperm.symm.nodup ?_
    rw [List.nodup_cons]
    refine ⟨?_, ?_⟩
    · intro hmem
      apply hk
      rw [keysOf_eq]
      simpa [allNodes_cons, List.map_append] using hmem
    · have := h.2.2.2
      unfold keysNodup at this
      rw [keysOf_eq] at this
      simpa [allNodes_cons, List.map_append] using this

theorem WF_insertNewNode {c : Cache} {k : Key} {v : Value} (h : WF c)
    (hk : k ∉ keysOf c.buckets) : WF (insertNewNode c k v) := by
  obtain ⟨fn, rest, hbs, hu⟩ := sentinelOK_iff.mp h.1.1
  refine ⟨bucketsWF_pushToSentinel h.1 hk, ?_⟩
  simp only [insertNewNode_buckets, insertNewNode_length, hbs]
  rw [allNodes_pushToSentinel]
  have h2 := h.2
  rw [hbs] at h2
  simp only [allNodes_cons] at h2
  simp only [List.length_append, List.length_cons] at *
  omega

theorem findNode_insertNewNode_other {c : Cache} {k k' : Key} {v : Value}
    (hs : sentinelOK c.buckets) (hkk : k' ≠ k) :
    findNode (insertNewNode c k v) k' = findNode c k' := by
  obtain ⟨fn, rest, hbs, hu⟩ := sentinelOK_iff.mp hs
  rw [findNode_eq_find?, findNode_eq_find?]
  simp only [insertNewNode_buckets, hbs]
  rw [allNodes_pushToSentinel, allNodes_cons]
  exact find?_append_middle_other (by simp [hkk.symm])

theorem findNode_insertNewNode_self {c : Cache} {k : Key} {v : Value}
    (hs : sentinelOK c.buckets) (hk : k ∉ keysOf c.buckets) :
    findNode (insertNewNode c k v) k = some ⟨k, v⟩ := by
  obtain ⟨fn, rest, hbs, hu⟩ := sentinelOK_iff.mp hs
  rw [findNode_eq_find?]
  simp only [insertNewNode_buckets, hbs]
  rw [allNodes_pushToSentinel, List.find?_append]
  have h1 : fn.nodes.find? (fun n => n.key == k) = none := by
    rw [List.find?_eq_none]
    intro x hx hxk
    apply hk
    rw [hbs, keysOf_cons]
    simp only [beq_iff_eq] at hxk
    exact List.mem_append_left _ (hxk ▸ List.mem_map_of_mem node.key hx)
  rw [h1, List.find?_cons_of_pos _ (by simp)]
  rfl

/-! ## List-level views of `usageOfKey` and `bucketNodes` -/

theorem usageOfKey_eq (c : Cache) (k : Key) :
    usageOfKey c k = usageIn c.buckets k := rfl

theorem bucketNodes_eq (c : Cache) (u : Nat) :
    bucketNodes c u = nodesAt c.buckets u := rfl

theorem usageIn_cons_pos {fn : frequencyNode} {rest : List frequencyNode}
    {k : Key} (h : fn.nodes.any (fun n => n.key == k)) :
    usageIn (fn :: rest) k = some fn.usage := by
  unfold usageIn
  rw [List.findSome?_cons, if_pos h]

theorem usageIn_cons_neg {fn : frequencyNode} {rest : List frequencyNode}
    {k : Key} (h : fn.nodes.any (fun n => n.key == k) = false) :
    usageIn (fn :: rest) k = usageIn rest k := by
  unfold usageIn
  rw [List.findSome?_cons, if_neg (by simp [h])]

theorem usageIn_mem {bs : List frequencyNode} {k : Key} {u : Nat}
    (h : usageIn bs k = some u) : u ∈ bs.map frequencyNode.usage := by
  induction bs with
  | nil => simp [usageIn] at h
  | cons fn rest ih =>
    by_cases hc : fn.nodes.any (fun n => n.key == k)
    · rw [usageIn_cons_pos hc] at h
      simp [← Option.some_inj.mp h]
    · rw [usageIn_cons_neg (by simpa using hc)] at h
      simp [ih h]

theorem nodesAt_cons_pos {fn : frequencyNode} {rest : List frequencyNode}
    {u : Nat} (h : fn.usage = u) : nodesAt (fn :: rest) u = fn.nodes := by
  unfold nodesAt
  rw [List.find?_cons_of_pos _ (by simp [h])]

theorem nodesAt_cons_neg {fn : frequencyNode} {rest : List frequencyNode}
    {u : Nat} (h : fn.usage ≠ u) : nodesAt (fn :: rest) u = nodesAt rest u := by
  unfold nodesAt
  rw [List.find?_cons_of_neg _ (by simp [h])]

theorem nodesAt_eq_nil {bs : List frequencyNode} {u : Nat}
    (h : ∀ fn ∈ bs, fn.usage ≠ u) : nodesAt bs u = [] := by
  unfold nodesAt
  rw [List.find?_eq_none.mpr (fun fn hfn => by simp [h fn hfn])]

/-! ## `promote` -/

theorem node_find?_decomp {l : List node} {k : Key} {n : node}
    (h : l.find? (fun m => m.key == k) = some n) :
    n.key = k ∧ ∃ l₁ l₂, l = l₁ ++ n :: l₂ ∧ (∀ m ∈ l₁, m.key ≠ k) ∧
      l.eraseP (fun m => m.key == k) = l₁ ++ l₂ := by
  rw [List.find?_eq_some] at h
  obtain ⟨hp, l₁, l₂, rfl, hl₁⟩ := h
  have hl₁' : ∀ m ∈ l₁, m.key ≠ k := by
    intro m hm
    have := hl₁ m hm
    simpa using this
  refine ⟨by simpa using hp, l₁, l₂, rfl, hl₁', ?_⟩
  rw [List.eraseP_append_right _ (fun m hm => by simp [hl₁' m hm])]
  have h2 : (n :: l₂).eraseP (fun m => m.key == k) = l₂ :=
    List.eraseP_cons_of_pos hp
  rw [h2]

theorem promote_not_mem {bs : List frequencyNode} {k : Key}
    (h : k ∉ keysOf bs) : promote bs k = bs := by
  induction bs with
  | nil => rfl
  | cons fn rest ih =>
    rw [keysOf_cons] at h
    have h1 : fn.nodes.find? (fun n => n.key == k) = none := by
      rw [List.find?_eq_none]
      intro x hx hxk
      exact h (List.mem_append_left _
        ((by simpa using hxk : x.key = k) ▸ List.mem_map_of_mem node.key hx))
    simp only [promote, h1]
    rw [ih (fun hm => h (List.mem_append_right _ hm))]

theorem promote_flat {bs : List frequencyNode} {k : Key} {n : node}
    (h : (allNodes bs).find? (fun m => m.key == k) = some n) :
    ∃ X Y₁ Y₂, allNodes bs = X ++ n :: (Y₁ ++ Y₂) ∧
      allNodes (promote bs k) = (X ++ Y₁) ++ n :: Y₂ ∧
      ∀ m ∈ X, m.key ≠ k := by
  induction bs with
  | nil => simp at h
  | cons fn rest ih =>
    rw [allNodes_cons, List.find?_append] at h
    cases hfn : fn.nodes.find? (fun m => m.key == k) with
    | none =>
      rw [hfn, Option.none_or] at h
      obtain ⟨X, Y₁, Y₂, h1, h2, h3⟩ := ih h
      refine ⟨fn.nodes ++ X, Y₁, Y₂, ?_, ?_, ?_⟩
      · rw [allNodes_cons, h1, List.append_assoc]
      · simp only [promote, hfn, allNodes_cons, h2]
        simp [List.append_assoc]
      · intro m hm
        rcases List.mem_append.mp hm with hm' | hm'
        · rw [List.find?_eq_none] at hfn
          have := hfn m hm'
          simpa using this
        · exact h3 m hm'
    | some n₀ =>
      rw [hfn, Option.or_some, Option.some_inj] at h
      subst h
      obtain ⟨hkey, l₁, l₂, hfneq, hl₁, herase⟩ := node_find?_decomp hfn
      cases rest with
      | nil =>
        refine ⟨l₁, l₂, [], ?_, ?_, hl₁⟩
        · simp [allNodes_cons, hfneq]
        · simp only [promote, hfn, herase]
          split
          · next hdrop =>
            have hnil : l₁ = [] ∧ l₂ = [] := by simpa using hdrop.2
            simp [allNodes_cons, hnil.1, hnil.2]
          · simp [allNodes_cons]
      | cons next rest2 =>
        by_cases hnu : next.usage = fn.usage + 1
        · refine ⟨l₁, l₂ ++ next.nodes, allNodes rest2, ?_, ?_, hl₁⟩
          · simp [allNodes_cons, hfneq, List.append_assoc]
          · simp only [promote, hfn, herase]
            rw [if_pos hnu]
            split
            · next hdrop =>
              have hnil : l₁ = [] ∧ l₂ = [] := by simpa using hdrop.2
              simp [allNodes_cons, hnil.1, hnil.2]
            · simp [allNodes_cons, List.append_assoc]
        · refine ⟨l₁, l₂, next.nodes ++ allNodes rest2, ?_, ?_, hl₁⟩
          · simp [allNodes_cons, hfneq, List.append_assoc]
          · simp only [promote, hfn, herase]
            rw [if_neg hnu]
            split
            · next hdrop =>
              have hnil : l₁ = [] ∧ l₂ = [] := by simpa using hdrop.2
              simp [allNodes_cons, hnil.1, hnil.2]
            · simp [allNodes_cons, List.append_assoc]

theorem allNodes_promote_perm (bs : List frequencyNode) (k : Key) :
    (allNodes (promote bs k)).Perm (allNodes bs) := by
  cases h : (allNodes bs).find? (fun m => m.key == k) with
  | none =>
    rw [promote_not_mem]
    rw [List.find?_eq_none] at h
    intro hk
    rw [keysOf_eq, List.mem_map] at hk
    obtain ⟨m, hm, hmk⟩ := hk
    exact h m hm (by simp [hmk])
  | some n =>
    obtain ⟨X, Y₁, Y₂, h1, h2, _⟩ := promote_flat h
    rw [h1, h2]
    refine List.perm_middle.trans ?_
    rw [List.append_assoc]
    exact List.perm_middle.symm

theorem promote_sentinel {bs : List frequencyNode} (k : Key)
    (h : sentinelOK bs) : sentinelOK (promote bs k) := by
  obtain ⟨fn, rest, rfl, hu⟩ := sentinelOK_iff.mp h
  cases hfn : fn.nodes.find? (fun n => n.key == k) with
  | none =>
    simp only [promote, hfn]
    simp [sentinelOK, hu]
  | some n =>
    cases rest with
    | nil =>
      simp only [promote, hfn]
      rw [if_neg (by simp [hu])]
      simp [sentinelOK, hu]
    | cons next rest2 =>
      by_cases hnu : next.usage = fn.usage + 1
      · simp only [promote, hfn]
        rw [if_pos hnu, if_neg (by simp [hu])]
        simp [sentinelOK, hu]
      · simp only [promote, hfn]
        rw [if_neg hnu, if_neg (by simp [hu])]
        simp [sentinelOK, hu]

theorem promote_noEmpty {bs : List frequencyNode} (k : Key)
    (h : noEmptyNonSentinel bs) : noEmptyNonSentinel (promote bs k) := by
  induction bs with
  | nil => simpa [promote] using h
  | cons fn rest ih =>
    have hrest : noEmptyNonSentinel rest := fun g hg => h g (by simp [hg])
    cases hfn : fn.nodes.find? (fun n => n.key == k) with
    | none =>
      simp only [promote, hfn]
      intro g hg
      rcases List.mem_cons.mp hg with rfl | hg'
      · exact h g (by simp)
      · exact ih hrest g hg'
    | some n =>
      cases rest with
      | nil =>
        simp only [promote, hfn]
        split
        · intro g hg
          rcases List.mem_cons.mp hg with rfl | hg'
          · intro _
            simp
          · simp at hg'
        · next hkeep =>
          intro g hg
          rcases List.mem_cons.mp hg with rfl | hg'
          · intro hu0
            have : ¬(fn.nodes.eraseP (fun m => m.key == k) = []) := by
              intro hnil
              exact hkeep ⟨hu0, hnil⟩
            simpa using this
          · rcases List.mem_cons.mp hg' with rfl | hg''
            · intro _
              simp
            · simp at hg''
      | cons next rest2 =>
        have hnext : next.usage ≠ 0 → next.nodes ≠ [] := h next (by simp)
        have hrest2 : ∀ g ∈ rest2, g.usage ≠ 0 → g.nodes ≠ [] :=
          fun g hg => h g (by simp [hg])
        by_cases hnu : next.usage = fn.usage + 1
        · simp only [promote, hfn]
          rw [if_pos hnu]
          split
          · intro g hg
            rcases List.mem_cons.mp hg with rfl | hg'
            · intro _
              simp
            · exact hrest2 g hg'
          · next hkeep =>
            intro g hg
            rcases List.mem_cons.mp hg with rfl | hg'
            · intro hu0
              have : ¬(fn.nodes.eraseP (fun m => m.key == k) = []) := by
                intro hnil
                exact hkeep ⟨hu0, hnil⟩
              simpa using this
            · rcases List.mem_cons.mp hg' with rfl | hg''
              · intro _
                simp
              · exact hrest2 g hg''
        · simp only [promote, hfn]
          rw [if_neg hnu]
          split
          · intro g hg
            rcases List.mem_cons.mp hg with rfl | hg'
            · intro _
              simp
            · rcases List.mem_cons.mp hg' with rfl | hg''
              · exact hnext
              · exact hrest2 g hg''
          · next hkeep =>
            intro g hg
            rcases List.mem_cons.mp hg with rfl | hg'
            · intro hu0
              have : ¬(fn.nodes.eraseP (fun m => m.key == k) = []) := by
                intro hnil
                exact hkeep ⟨hu0, hnil⟩
              simpa using this
            · rcases List.mem_cons.mp hg' with rfl | hg''
              · intro _
                simp
              · rcases List.mem_cons.mp hg'' with rfl | hg₃
                · exact hnext
                · exact hrest2 g hg₃

theorem promote_usages {bs : List frequencyNode} (k : Key)
    (h : (bs.map frequencyNode.usage).Pairwise (· < ·)) :
    ((promote bs k).map frequencyNode.usage).Pairwise (· < ·) ∧
    ∀ x ∈ (promote bs k).map frequencyNode.usage,
      ∃ y ∈ bs.map frequencyNode.usage, y ≤ x := by
  induction bs with
  | nil => exact ⟨by simp [promote], by simp [promote]⟩
  | cons fn rest ih =>
    rw [List.map_cons, List.pairwise_cons] at h
    obtain ⟨hlt, hpw⟩ := h
    cases hfn : fn.nodes.find? (fun n => n.key == k) with
    | none =>
      obtain ⟨ih1, ih2⟩ := ih hpw
      simp only [promote, hfn, List.map_cons]
      constructor
      · rw [List.pairwise_cons]
        refine ⟨?_, ih1⟩
        intro u hu
        obtain ⟨y, hy, hyx⟩ := ih2 u hu
        exact lt_of_lt_of_le (hlt y hy) hyx
      · intro x hx
        rcases List.mem_cons.mp hx with rfl | hx'
        · exact ⟨fn.usage, by simp, le_refl _⟩
        · obtain ⟨y, hy, hyx⟩ := ih2 x hx'
          exact ⟨y, by simp [hy], hyx⟩
    | some n =>
      cases rest with
      | nil =>
        simp only [promote, hfn]
        split
        · refine ⟨by simp, ?_⟩
          intro x hx
          simp only [List.map_cons, List.map_nil, List.mem_cons,
            List.not_mem_nil, or_false] at hx
          subst hx
          exact ⟨fn.usage, by simp, by omega⟩
        · refine ⟨by simp, ?_⟩
          intro x hx
          simp only [List.map_cons, List.map_nil, List.mem_cons,
            List.not_mem_nil, or_false] at hx
          rcases hx with rfl | rfl
          · exact ⟨fn.usage, by simp, le_refl _⟩
          · exact ⟨fn.usage, by simp, by omega⟩
      | cons next rest2 =>
        rw [List.map_cons, List.pairwise_cons] at hpw
        obtain ⟨hlt2, hpw2⟩ := hpw
        have hfnext : fn.usage < next.usage := hlt next.usage (by simp)
        have hfrest2 : ∀ u ∈ rest2.map frequencyNode.usage, fn.usage < u :=
          fun u hu => hlt u (by simp [hu])
        by_cases hnu : next.usage = fn.usage + 1
        · simp only [promote, hfn]
          rw [if_pos hnu]
          split
          · refine ⟨?_, ?_⟩
            · rw [List.map_cons, List.pairwise_cons]
              exact ⟨hlt2, hpw2⟩
            · intro x hx
              rcases List.mem_cons.mp hx with rfl | hx'
              · exact ⟨next.usage, by simp, le_refl _⟩
              · exact ⟨x, by simp [hx'], le_refl _⟩
          · refine ⟨?_, ?_⟩
            · rw [List.map_cons, List.pairwise_cons,
                List.map_cons, List.pairwise_cons]
              refine ⟨?_, ?_, hpw2⟩
              · intro u hu
                rcases List.mem_cons.mp hu with rfl | hu'
                · exact hfnext
                · exact hfrest2 u hu'
              · exact hlt2
            · intro x hx
              rcases List.mem_cons.mp hx with rfl | hx'
              · exact ⟨fn.usage, by simp, le_refl _⟩
              · rcases List.mem_cons.mp hx' with rfl | hx''
                · exact ⟨next.usage, by simp, le_refl _⟩
                · exact ⟨x, by simp [hx''], le_refl _⟩
        · have hnext2 : fn.usage + 1 < next.usage := by omega
          simp only [promote, hfn]
          rw [if_neg hnu]
          split
          · refine ⟨?_, ?_⟩
            · rw [List.map_cons, List.pairwise_cons]
              refine ⟨?_, ?_⟩
              · intro u hu
                rcases List.mem_cons.mp hu with rfl | hu'
                · exact hnext2
                · exact lt_trans hnext2 (hlt2 u hu')
              · rw [List.map_cons, List.pairwise_cons]
                exact ⟨hlt2, hpw2⟩
            · intro x hx
              rcases List.mem_cons.mp hx with rfl | hx'
              · exact ⟨fn.usage, by simp, by dsimp only; omega⟩
              · rcases List.mem_cons.mp hx' with rfl | hx''
                · exact ⟨next.usage, by simp, le_refl _⟩
                · exact ⟨x, by simp [hx''], le_refl _⟩
          · refine ⟨?_, ?_⟩
            · rw [List.map_cons, List.pairwise_cons]
              refine ⟨?_, ?_⟩
              · intro u hu
                rcases List.mem_cons.mp hu with rfl | hu'
                · dsimp only
                  omega
                · rcases List.mem_cons.mp hu' with rfl | hu''
                  · exact hfnext
                  · exact hfrest2 u hu''
              · rw [List.map_cons, List.pairwise_cons]
                refine ⟨?_, ?_⟩
                · intro u hu
                  rcases List.mem_cons.mp hu with rfl | hu'
                  · exact hnext2
                  · exact lt_trans hnext2 (hlt2 u hu')
                · rw [List.map_cons, List.pairwise_cons]
                  exact ⟨hlt2, hpw2⟩
            · intro x hx
              rcases List.mem_cons.mp hx with rfl | hx'
              · exact ⟨fn.usage, by simp, le_refl _⟩
              · rcases List.mem_cons.mp hx' with rfl | hx''
                · exact ⟨fn.usage, by simp, by dsimp only; omega⟩
                · rcases List.mem_cons.mp hx'' with rfl | hx₃
                  · exact ⟨next.usage, by simp, le_refl _⟩
                  · exact ⟨x, by simp [hx₃], le_refl _⟩

theorem nodesAt_nil (u : Nat) : nodesAt [] u = [] := rfl

theorem promote_bucket_facts {bs : List frequencyNode} {k : Key} {n : node}
    {u : Nat}
    (hp : (bs.map frequencyNode.usage).Pairwise (· < ·))
    (hnd : (keysOf bs).Nodup)
    (hu : usageIn bs k = some u)
    (hn : (allNodes bs).find? (fun m => m.key == k) = some n) :
    usageIn (promote bs k) k = some (u + 1) ∧
    nodesAt (promote bs k) (u + 1) = nodesAt bs (u + 1) ++ [n] := by
  induction bs with
  | nil => simp [usageIn] at hu
  | cons fn rest ih =>
    rw [List.map_cons, List.pairwise_cons] at hp
    obtain ⟨hlt, hpw⟩ := hp
    rw [keysOf_cons] at hnd
    cases hfn : fn.nodes.find? (fun m => m.key == k) with
    | none =>
      have hany : fn.nodes.any (fun m => m.key == k) = false := by
        rw [List.any_eq_false]
        intro m hm
        rw [List.find?_eq_none] at hfn
        exact hfn m hm
      rw [usageIn_cons_neg hany] at hu
      rw [allNodes_cons, List.find?_append, hfn, Option.none_or] at hn
      have hnd' : (keysOf rest).Nodup := (List.nodup_append.mp hnd).2.1
      obtain ⟨ih1, ih2⟩ := ih hpw hnd' hu hn
      have hfu : fn.usage < u := hlt u (usageIn_mem hu)
      have hpromote : promote (fn :: rest) k = fn :: promote rest k := by
        simp [promote, hfn]
      constructor
      · rw [hpromote, usageIn_cons_neg hany]
        exact ih1
      · rw [hpromote, nodesAt_cons_neg (by omega), nodesAt_cons_neg (by omega)]
        exact ih2
    | some n₀ =>
      obtain ⟨hkey, l₁, l₂, hfneq, hl₁, herase⟩ := node_find?_decomp hfn
      have hany : fn.nodes.any (fun m => m.key == k) := by
        rw [List.any_eq_true]
        exact ⟨n₀, by rw [hfneq]; exact List.mem_append_right _ (.head _),
          by simp [hkey]⟩
      rw [usageIn_cons_pos hany, Option.some_inj] at hu
      subst hu
      rw [allNodes_cons, List.find?_append, hfn, Option.or_some,
        Option.some_inj] at hn
      subst hn
      have hfnnodup : (fn.nodes.map node.key).Nodup :=
        (List.nodup_append.mp hnd).1
      have hns_any :
          ((fn.nodes.eraseP (fun m => m.key == k)).any
            (fun m => m.key == k)) = false := by
        rw [List.any_eq_false]
        intro m hm hmk
        have hnone := eraseP_key_find?_self (l := fn.nodes) (k := k) hfnnodup
        rw [List.find?_eq_none] at hnone
        exact hnone m hm hmk
      cases rest with
      | nil =>
        constructor
        · simp only [promote, hfn]
          split
          · rw [usageIn_cons_pos (by simp [hkey])]
          · rw [usageIn_cons_neg hns_any, usageIn_cons_pos (by simp [hkey])]
        · have hRHS : nodesAt [fn] (fn.usage + 1) = [] := by
            rw [nodesAt_cons_neg (by omega), nodesAt_nil]
          rw [hRHS]
          simp only [promote, hfn]
          split
          · rw [nodesAt_cons_pos rfl]
            simp
          · rw [nodesAt_cons_neg (by dsimp only; omega), nodesAt_cons_pos rfl]
            simp
      | cons next rest2 =>
        have hfnext : fn.usage < next.usage := hlt next.usage (by simp)
        rw [List.map_cons, List.pairwise_cons] at hpw
        obtain ⟨hlt2, _⟩ := hpw
        by_cases hnu : next.usage = fn.usage + 1
        · constructor
          · simp only [promote, hfn]
            rw [if_pos hnu]
            split
            · rw [usageIn_cons_pos (by
                rw [List.any_eq_true]
                exact ⟨n₀, by simp, by simp [hkey]⟩)]
              dsimp only
              rw [hnu]
            · rw [usageIn_cons_neg hns_any, usageIn_cons_pos (by
                rw [List.any_eq_true]
                exact ⟨n₀, by simp, by simp [hkey]⟩)]
              dsimp only
              rw [hnu]
          · have hRHS : nodesAt (fn :: next :: rest2) (fn.usage + 1) =
                next.nodes := by
              rw [nodesAt_cons_neg (by omega), nodesAt_cons_pos hnu]
            rw [hRHS]
            simp only [promote, hfn]
            rw [if_pos hnu]
            split
            · rw [nodesAt_cons_pos (by dsimp only; exact hnu)]
            · rw [nodesAt_cons_neg (by dsimp only; omega),
                nodesAt_cons_pos (by dsimp only; exact hnu)]
        · have hnu2 : fn.usage + 1 < next.usage := by omega
          have hr2 : nodesAt rest2 (fn.usage + 1) = [] :=
            nodesAt_eq_nil (fun g hg => by
              have := hlt2 g.usage (List.mem_map_of_mem frequencyNode.usage hg)
              omega)
          constructor
          · simp only [promote, hfn]
            rw [if_neg hnu]
            split
            · rw [usageIn_cons_pos (by
                rw [List.any_eq_true]
                exact ⟨n₀, by simp, by simp [hkey]⟩)]
            · rw [usageIn_cons_neg hns_any, usageIn_cons_pos (by
                rw [List.any_eq_true]
                exact ⟨n₀, by simp, by simp [hkey]⟩)]
          · have hRHS : nodesAt (fn :: next :: rest2) (fn.usage + 1) = [] := by
              rw [nodesAt_cons_neg (by omega), nodesAt_cons_neg (by omega), hr2]
            rw [hRHS]
            simp only [promote, hfn]
            rw [if_neg hnu]
            split
            · rw [nodesAt_cons_pos rfl]
              simp
            · rw [nodesAt_cons_neg (by dsimp only; omega),
                nodesAt_cons_pos rfl]
              simp

theorem bucketsWF_promote {bs : List frequencyNode} (k : Key)
    (h : BucketsWF bs) : BucketsWF (promote bs k) := by
  refine ⟨promote_sentinel k h.1, (promote_usages k h.2.1).1,
    promote_noEmpty k h.2.2.1, ?_⟩
  unfold keysNodup at *
  rw [keysOf_eq] at *
  exact ((allNodes_promote_perm bs k).map node.key).symm.nodup h.2.2.2

/-! ## `lfu` returns the head of the minimum-usage non-empty bucket -/

theorem findSome?_head_min {bs : List frequencyNode}
    (hs : (bs.map frequencyNode.usage).Pairwise (· < ·)) {n : node}
    (h : bs.findSome? (fun fn => fn.nodes.head?) = some n) :
    ∃ fn ∈ bs, fn.nodes.head? = some n ∧
      ∀ fn' ∈ bs, fn'.nodes ≠ [] → fn.usage ≤ fn'.usage := by
  induction bs with
  | nil => simp at h
  | cons fn rest ih =>
    rw [List.map_cons, List.pairwise_cons] at hs
    rw [List.findSome?_cons] at h
    cases hh : fn.nodes.head? with
    | some m =>
      rw [hh] at h
      dsimp only at h
      obtain rfl : m = n := Option.some_inj.mp h
      refine ⟨fn, by simp, hh, ?_⟩
      intro fn' hfn' _
      rcases List.mem_cons.mp hfn' with rfl | hfn''
      · exact le_refl _
      · exact le_of_lt
          (hs.1 fn'.usage (List.mem_map_of_mem frequencyNode.usage hfn''))
    | none =>
      rw [hh] at h
      dsimp only at h
      obtain ⟨fn₀, hfn₀, hhead, hmin⟩ := ih hs.2 h
      refine ⟨fn₀, by simp [hfn₀], hhead, ?_⟩
      intro fn' hfn' hne
      rcases List.mem_cons.mp hfn' with rfl | hfn''
      · exact absurd (List.head?_eq_none_iff.mp hh) hne
      · exact hmin fn' hfn'' hne

theorem lfu_min_head {c : Cache} (hs : usagesSorted c.buckets) {n : node}
    (h : lfu c = some n) :
    ∃ fn ∈ c.buckets, fn.nodes.head? = some n ∧
      ∀ fn' ∈ c.buckets, fn'.nodes ≠ [] → fn.usage ≤ fn'.usage :=
  findSome?_head_min hs h

/-! ## `Access` -/

theorem Access_miss {c : Cache} {k : Key} (h : findNode c k = none) :
    Access c k =
      ({ c with stats := { c.stats with Misses := c.stats.Misses + 1 } },
       none) := by
  unfold Access
  rw [h]

theorem Access_hit {c : Cache} {k : Key} {n : node}
    (h : findNode c k = some n) :
    Access c k =
      ({ c with
          buckets := promote c.buckets k
          stats := { c.stats with Hits := c.stats.Hits + 1 } },
       some n.value) := by
  unfold Access
  rw [h]

theorem WF_Access {c : Cache} (h : WF c) (k : Key) : WF (Access c k).1 := by
  cases hf : findNode c k with
  | none =>
    rw [Access_miss hf]
    exact ⟨h.1, h.2⟩
  | some n =>
    rw [Access_hit hf]
    refine ⟨bucketsWF_promote k h.1, ?_⟩
    dsimp only
    rw [(allNodes_promote_perm c.buckets k).length_eq]
    exact h.2

theorem promote_eq_self_of_find?_none {bs : List frequencyNode} {k : Key}
    (h : (allNodes bs).find? (fun m => m.key == k) = none) :
    promote bs k = bs := by
  apply promote_not_mem
  rw [List.find?_eq_none] at h
  intro hk
  rw [keysOf_eq, List.mem_map] at hk
  obtain ⟨m, hm, hmk⟩ := hk
  exact h m hm (by simp [hmk])

theorem find?_promote_other {bs : List frequencyNode} {k k' : Key}
    (hkk : k' ≠ k) :
    (allNodes (promote bs k)).find? (fun m => m.key == k') =
      (allNodes bs).find? (fun m => m.key == k') := by
  cases h : (allNodes bs).find? (fun m => m.key == k) with
  | none => rw [promote_eq_self_of_find?_none h]
  | some n =>
    obtain ⟨X, Y₁, Y₂, h1, h2, _⟩ := promote_flat h
    have hkey : n.key = k := by
      have := List.find?_some h
      simpa using this
    rw [h1, h2]
    rw [find?_append_middle_other (by simp [hkey, hkk.symm]),
      find?_append_middle_other (by simp [hkey, hkk.symm]),
      List.append_assoc]

theorem key_unique_right {X Z : List node} {n : node}
    (hnd : ((X ++ n :: Z).map node.key).Nodup) :
    ∀ m ∈ Z, m.key ≠ n.key := by
  rw [List.map_append, List.map_cons] at hnd
  have h2 := (List.nodup_append.mp hnd).2.1
  rw [List.nodup_cons] at h2
  intro m hm hmk
  exact h2.1 (hmk ▸ List.mem_map_of_mem node.key hm)

theorem find?_promote_self {bs : List frequencyNode} {k : Key} {n : node}
    (hnd : (keysOf bs).Nodup)
    (h : (allNodes bs).find? (fun m => m.key == k) = some n) :
    (allNodes (promote bs k)).find? (fun m => m.key == k) = some n := by
  obtain ⟨X, Y₁, Y₂, h1, h2, hX⟩ := promote_flat h
  have hkey : n.key = k := by
    have := List.find?_some h
    simpa using this
  have hnd' : ((X ++ n :: (Y₁ ++ Y₂)).map node.key).Nodup := by
    rw [keysOf_eq, h1] at hnd
    exact hnd
  have hY : ∀ m ∈ Y₁ ++ Y₂, m.key ≠ n.key := key_unique_right hnd'
  rw [h2, List.find?_append]
  have h3 : (X ++ Y₁).find? (fun m => m.key == k) = none := by
    rw [List.find?_eq_none]
    intro m hm hmk
    rcases List.mem_append.mp hm with hm' | hm'
    · exact hX m hm' (by simpa using hmk)
    · exact hY m (List.mem_append_left _ hm') (by
        rw [hkey]
        simpa using hmk)
  rw [h3, Option.none_or, List.find?_cons_of_pos _ (by simp [hkey])]

theorem find?_eq_of_mem_nodup {l : List node}
    (hnd : (l.map node.key).Nodup) {m : node} (hm : m ∈ l) :
    l.find? (fun x => x.key == m.key) = some m := by
  induction l with
  | nil => simp at hm
  | cons a l ih =>
    rw [List.map_cons, List.nodup_cons] at hnd
    rcases List.mem_cons.mp hm with rfl | hm'
    · rw [List.find?_cons_of_pos _ (by simp)]
    · by_cases ha : a.key = m.key
      · exact absurd (ha ▸ List.mem_map_of_mem node.key hm') hnd.1
      · rw [List.find?_cons_of_neg _ (by simp [ha])]
        exact ih hnd.2 hm'

/-! ## `Delete` -/

theorem Delete_miss {c : Cache} {k : Key} (h : findNode c k = none) :
    Delete c k = (c, [], false) := by
  unfold Delete
  rw [h]

theorem Delete_hit {c : Cache} {k : Key} {n : node}
    (h : findNode c k = some n) :
    Delete c k =
      ({ deleteNode c k with
          stats := { c.stats with Deletes := c.stats.Deletes + 1 } },
       [], true) := by
  unfold Delete
  rw [h]
  rfl

theorem WF_Delete {c : Cache} (h : WF c) (k : Key) : WF (Delete c k).1 := by
  cases hf : findNode c k with
  | none =>
    rw [Delete_miss hf]
    exact h
  | some n =>
    rw [Delete_hit hf]
    have hk : k ∈ keysOf c.buckets := by
      obtain ⟨hn, hnk⟩ := findNode_mem hf
      exact hnk ▸ mem_keysOf_of_mem hn
    have := WF_deleteNode h hk
    exact ⟨this.1, this.2⟩

/-! ## `Insert`: case equations -/

theorem not_mem_keys_deleteNodeIn_of {bs : List frequencyNode} {k : Key}
    (k' : Key) (h : k ∉ keysOf bs) : k ∉ keysOf (deleteNodeIn bs k') := by
  intro hk
  apply h
  rw [keysOf_eq] at hk ⊢
  rw [allNodes_deleteNodeIn] at hk
  obtain ⟨m, hm, rfl⟩ := List.mem_map.mp hk
  exact List.mem_map_of_mem node.key (List.mem_of_mem_eraseP hm)

theorem not_mem_keys_deleteNodeIn_self {bs : List frequencyNode} {k : Key}
    (hnd : keysNodup bs) : k ∉ keysOf (deleteNodeIn bs k) := by
  rw [keysOf_eq, allNodes_deleteNodeIn]
  intro hk
  obtain ⟨m, hm, rfl⟩ := List.mem_map.mp hk
  have hnone := eraseP_key_find?_self (l := allNodes bs) (k := m.key) hnd
  rw [List.find?_eq_none] at hnone
  exact hnone m hm (by simp)

theorem Insert_absent_noevict {c : Cache} {k : Key} {v : Value}
    (hf : findNode c k = none) (hlen : c.length ≠ c.capacity) :
    Insert c k v = some (insertNewNode c k v, []) := by
  unfold Insert
  rw [hf]
  dsimp only
  rw [if_neg hlen]

theorem Insert_absent_evict {c : Cache} {k : Key} {v : Value} {n : node}
    (hf : findNode c k = none) (hlen : c.length = c.capacity)
    (hlfu : lfu c = some n) :
    Insert c k v =
      some (insertNewNode (evictNode c n).1 k v, evictMsgs c n.value) := by
  unfold Insert
  rw [hf]
  dsimp only
  rw [if_pos hlen, hlfu]
  rfl

theorem Insert_absent_panic {c : Cache} {k : Key} {v : Value}
    (hf : findNode c k = none) (hlen : c.length = c.capacity)
    (hlfu : lfu c = none) : Insert c k v = none := by
  unfold Insert
  rw [hf]
  dsimp only
  rw [if_pos hlen, hlfu]

theorem Insert_present {c : Cache} {k : Key} {v : Value} {n : node}
    (hf : findNode c k = some n) (hlen : c.length - 1 ≠ c.capacity) :
    Insert c k v =
      some (insertNewNode (evictNode c n).1 k v, evictMsgs c n.value) := by
  unfold Insert
  rw [hf]
  dsimp only
  rw [if_neg (by simpa using hlen)]
  rfl

theorem Insert_present_evict {c : Cache} {k : Key} {v : Value} {n n' : node}
    (hf : findNode c k = some n) (hlen : c.length - 1 = c.capacity)
    (hlfu : lfu (evictNode c n).1 = some n') :
    Insert c k v =
      some (insertNewNode (evictNode (evictNode c n).1 n').1 k v,
        evictMsgs c n.value ++ evictMsgs (evictNode c n).1 n'.value) := by
  unfold Insert
  rw [hf]
  dsimp only
  rw [if_pos (by simpa using hlen), hlfu]
  rfl

theorem Insert_present_panic {c : Cache} {k : Key} {v : Value} {n : node}
    (hf : findNode c k = some n) (hlen : c.length - 1 = c.capacity)
    (hlfu : lfu (evictNode c n).1 = none) : Insert c k v = none := by
  unfold Insert
  rw [hf]
  dsimp only
  rw [if_pos (by simpa using hlen), hlfu]

theorem WF_Insert {c : Cache} (h : WF c) {k : Key} {v : Value}
    {c' : Cache} {m : List Msg} (hins : Insert c k v = some (c', m)) :
    WF c' := by
  cases hf : findNode c k with
  | none =>
    by_cases hlen : c.length = c.capacity
    · cases hlfu : lfu c with
      | none => rw [Insert_absent_panic hf hlen hlfu] at hins; cases hins
      | some n =>
        rw [Insert_absent_evict hf hlen hlfu] at hins
        obtain ⟨rfl, rfl⟩ : c' = insertNewNode (evictNode c n).1 k v ∧
            m = evictMsgs c n.value := by
          have := Option.some_inj.mp hins
          exact ⟨congrArg Prod.fst this.symm, congrArg Prod.snd this.symm⟩
        have h1 := WF_evictNode h (lfu_mem hlfu)
        refine WF_insertNewNode h1 ?_
        have hk : k ∉ keysOf c.buckets := (findNode_eq_none_iff c k).mp hf
        simpa using not_mem_keys_deleteNodeIn_of n.key hk
    · rw [Insert_absent_noevict hf hlen] at hins
      obtain ⟨rfl, rfl⟩ : c' = insertNewNode c k v ∧ m = [] := by
        have := Option.some_inj.mp hins
        exact ⟨congrArg Prod.fst this.symm, congrArg Prod.snd this.symm⟩
      exact WF_insertNewNode h ((findNode_eq_none_iff c k).mp hf)
  | some n =>
    have hn := findNode_mem hf
    have h1 := WF_evictNode h hn.1
    have hk1 : k ∉ keysOf (evictNode c n).1.buckets := by
      simp only [evictNode_fst_buckets]
      rw [← hn.2]
      exact not_mem_keys_deleteNodeIn_self h.1.2.2.2
    by_cases hlen : c.length - 1 = c.capacity
    · cases hlfu : lfu (evictNode c n).1 with
      | none => rw [Insert_present_panic hf hlen hlfu] at hins; cases hins
      | some n' =>
        rw [Insert_present_evict hf hlen hlfu] at hins
        obtain ⟨rfl, rfl⟩ :
            c' = insertNewNode (evictNode (evictNode c n).1 n').1 k v ∧
            m = evictMsgs c n.value ++
              evictMsgs (evictNode c n).1 n'.value := by
          have := Option.some_inj.mp hins
          exact ⟨congrArg Prod.fst this.symm, congrArg Prod.snd this.symm⟩
        have h2 := WF_evictNode h1 (lfu_mem hlfu)
        refine WF_insertNewNode h2 ?_
        simpa using not_mem_keys_deleteNodeIn_of n'.key hk1
    · rw [Insert_present hf hlen] at hins
      obtain ⟨rfl, rfl⟩ : c' = insertNewNode (evictNode c n).1 k v ∧
          m = evictMsgs c n.value := by
        have := Option.some_inj.mp hins
        exact ⟨congrArg Prod.fst this.symm, congrArg Prod.snd this.symm⟩
      exact WF_insertNewNode h1 hk1

/-! ## `Resize` -/

theorem countP_evictMsgs (c : Cache) (v : Value) (ch : Nat) :
    (evictMsgs c v).countP (fun x => x.1 == ch) =
      c.evictedChans.count ch := by
  unfold evictMsgs
  rw [List.countP_map, List.count_eq_countP]
  rfl

theorem resizeLoop_sound :
    ∀ (fuel : Nat) (c : Cache) (acc : List Msg) {c' : Cache} {m : List Msg},
      resizeLoop fuel c acc = some (c', m) → WF c →
      WF c' ∧ c'.capacity = c.capacity ∧ c'.evictedChans = c.evictedChans ∧
      c'.length ≤ c'.capacity ∧
      List.Sublist (allNodes c'.buckets) (allNodes c.buckets) ∧
      ∃ e : Nat, c'.stats.Evictions = c.stats.Evictions + e ∧
        ∀ ch : Nat, m.countP (fun x => x.1 == ch) =
          acc.countP (fun x => x.1 == ch) + e * (c.evictedChans.count ch) := by
  intro fuel
  induction fuel with
  | zero =>
    intro c acc c' m hres hwf
    unfold resizeLoop at hres
    split at hres
    · cases hres
    · next hcond =>
      obtain ⟨rfl, rfl⟩ : c = c' ∧ acc = m := by
        have := Option.some_inj.mp hres
        exact ⟨congrArg Prod.fst this, congrArg Prod.snd this⟩
      exact ⟨hwf, rfl, rfl, by omega, List.Sublist.refl _,
        0, by omega, fun ch => by omega⟩
  | succ fuel ih =>
    intro c acc c' m hres hwf
    unfold resizeLoop at hres
    split at hres
    · next hcond =>
      cases hlfu : lfu c with
      | none => rw [hlfu] at hres; cases hres
      | some n =>
        rw [hlfu] at hres
        dsimp only at hres
        have hwf1 := WF_evictNode hwf (lfu_mem hlfu)
        obtain ⟨hwf', hcap, hchans, hlen, hsub, e, he, hcount⟩ :=
          ih _ _ hres hwf1
        refine ⟨hwf', by simpa using hcap, by simpa using hchans, hlen,
          ?_, e + 1, ?_, ?_⟩
        · refine hsub.trans ?_
          rw [evictNode_fst_buckets, allNodes_deleteNodeIn]
          exact List.eraseP_sublist _
        · rw [he]
          simp only [evictNode_fst_stats]
          omega
        · intro ch
          rw [hcount ch]
          simp only [evictNode_fst_evictedChans, evictNode_snd,
            List.countP_append, countP_evictMsgs]
          ring
    · next hcond =>
      obtain ⟨rfl, rfl⟩ : c = c' ∧ acc = m := by
        have := Option.some_inj.mp hres
        exact ⟨congrArg Prod.fst this, congrArg Prod.snd this⟩
      exact ⟨hwf, rfl, rfl, by omega, List.Sublist.refl _,
        0, by omega, fun ch => by omega⟩

theorem resizeLoop_total :
    ∀ (fuel : Nat) (c : Cache) (acc : List Msg), WF c → 0 ≤ c.capacity →
      (c.length - c.capacity).toNat ≤ fuel →
      (resizeLoop fuel c acc).isSome := by
  intro fuel
  induction fuel with
  | zero =>
    intro c acc hwf hcap hfuel
    unfold resizeLoop
    rw [if_neg (by omega)]
    rfl
  | succ fuel ih =>
    intro c acc hwf hcap hfuel
    unfold resizeLoop
    by_cases hcond : c.capacity < c.length
    · rw [if_pos hcond]
      have hne : allNodes c.buckets ≠ [] := by
        intro hnil
        have h2 := hwf.2
        rw [hnil] at h2
        simp at h2
        omega
      obtain ⟨n, hlfu⟩ := Option.isSome_iff_exists.mp (lfu_isSome_of_ne_nil hne)
      rw [hlfu]
      dsimp only
      exact ih _ _ (WF_evictNode hwf (lfu_mem hlfu)) (by simpa using hcap)
        (by simp only [evictNode_fst_length, evictNode_fst_capacity]; omega)
    · rw [if_neg hcond]
      rfl

theorem Resize_eq (c : Cache) (cap : Int) :
    Resize c cap =
      resizeLoop (c.length.toNat + 1) { c with capacity := cap } [] := rfl

theorem WF_setCapacity {c : Cache} (h : WF c) (cap : Int) :
    WF { c with capacity := cap } := h

theorem Resize_sound {c : Cache} (h : WF c) {cap : Int} {c' : Cache}
    {m : List Msg} (hres : Resize c cap = some (c', m)) :
    WF c' ∧ c'.capacity = cap ∧ c'.evictedChans = c.evictedChans ∧
    c'.length ≤ c'.capacity ∧
    List.Sublist (allNodes c'.buckets) (allNodes c.buckets) ∧
    ∃ e : Nat, c'.stats.Evictions = c.stats.Evictions + e ∧
      ∀ ch : Nat, m.countP (fun x => x.1 == ch) =
        e * (c.evictedChans.count ch) := by
  rw [Resize_eq] at hres
  obtain ⟨hwf', hcap, hchans, hlen, hsub, e, he, hcount⟩ :=
    resizeLoop_sound _ _ _ hres (WF_setCapacity h cap)
  exact ⟨hwf', hcap, hchans, hlen, hsub, e, he,
    fun ch => by simpa using hcount ch⟩

theorem Resize_total {c : Cache} (h : WF c) {cap : Int} (hcap : 0 ≤ cap) :
    (Resize c cap).isSome := by
  rw [Resize_eq]
  exact resizeLoop_total _ _ _ (WF_setCapacity h cap) hcap (by
    dsimp only
    omega)

/-! ## `EvictIf` -/

theorem countP_congr2 {α : Type} {l : List α} {p q : α → Bool}
    (h : ∀ x ∈ l, p x = q x) : l.countP p = l.countP q := by
  rw [List.countP_eq_length_filter, List.countP_eq_length_filter,
    List.filter_congr h]

theorem kill_step {c : Cache} (test : Value → Bool) (rest : List Key)
    {k : Key} {n : node} (hnd : (keysOf c.buckets).Nodup)
    (hf : findNode c k = some n) (htest : test n.value = true) :
    ((allNodes c.buckets).eraseP (fun m => m.key == k)).filter
        (fun m => !(test m.value && rest.contains m.key)) =
      (allNodes c.buckets).filter
        (fun m => !(test m.value && (k :: rest).contains m.key)) ∧
    (allNodes c.buckets).countP
        (fun m => test m.value && (k :: rest).contains m.key) =
      ((allNodes c.buckets).eraseP (fun m => m.key == k)).countP
        (fun m => test m.value && rest.contains m.key) + 1 := by
  rw [findNode_eq_find?] at hf
  obtain ⟨hkey, L₁, L₂, hdecomp, hL₁, herase⟩ := node_find?_decomp hf
  have hndX : ((L₁ ++ n :: L₂).map node.key).Nodup := by
    rw [keysOf_eq, hdecomp] at hnd
    exact hnd
  have hL₂ : ∀ m ∈ L₂, m.key ≠ k := by
    intro m hm hmk
    exact key_unique_right hndX m hm (by rw [hmk, hkey])
  have hcong : ∀ m : node, m.key ≠ k →
      (test m.value && (k :: rest).contains m.key) =
      (test m.value && rest.contains m.key) := by
    intro m hmk
    simp [List.contains_cons, hmk]
  have hkiln : (test n.value && (k :: rest).contains n.key) = true := by
    simp [htest, hkey]
  constructor
  · rw [herase, hdecomp, List.filter_append, List.filter_append,
      List.filter_cons]
    rw [if_neg (by simp [htest, hkey])]
    have e1 : L₁.filter (fun m => !(test m.value && (k :: rest).contains m.key))
        = L₁.filter (fun m => !(test m.value && rest.contains m.key)) :=
      List.filter_congr (fun m hm => by rw [hcong m (hL₁ m hm)])
    have e2 : L₂.filter (fun m => !(test m.value && (k :: rest).contains m.key))
        = L₂.filter (fun m => !(test m.value && rest.contains m.key)) :=
      List.filter_congr (fun m hm => by rw [hcong m (hL₂ m hm)])
    rw [e1, e2]
  · rw [herase, hdecomp, List.countP_append, List.countP_append]
    have e0 : (n :: L₂).countP
          (fun m => test m.value && (k :: rest).contains m.key) =
        L₂.countP (fun m => test m.value && (k :: rest).contains m.key) + 1 :=
      List.countP_cons_of_pos _ _ hkiln
    have e1 : L₁.countP (fun m => test m.value && (k :: rest).contains m.key)
        = L₁.countP (fun m => test m.value && rest.contains m.key) :=
      countP_congr2 (fun m hm => hcong m (hL₁ m hm))
    have e2 : L₂.countP (fun m => test m.value && (k :: rest).contains m.key)
        = L₂.countP (fun m => test m.value && rest.contains m.key) :=
      countP_congr2 (fun m hm => hcong m (hL₂ m hm))
    rw [e0, e1, e2]
    omega

theorem evictIf_loop (test : Value → Bool) :
    ∀ (order : List Key) (c : Cache) (ms : List Msg) (cnt : Nat)
      {c' : Cache} {ms' : List Msg} {cnt' : Nat},
      order.foldl (evictIfStep test) (c, ms, cnt) = (c', ms', cnt') →
      WF c → order.Nodup →
      WF c' ∧ c'.capacity = c.capacity ∧
      c'.evictedChans = c.evictedChans ∧
      allNodes c'.buckets = (allNodes c.buckets).filter
        (fun n => !(test n.value && order.contains n.key)) ∧
      cnt' = cnt + (allNodes c.buckets).countP
        (fun n => test n.value && order.contains n.key) ∧
      c'.stats.Evictions = c.stats.Evictions +
        (allNodes c.buckets).countP
          (fun n => test n.value && order.contains n.key) ∧
      ∀ ch : Nat, ms'.countP (fun x => x.1 == ch) =
        ms.countP (fun x => x.1 == ch) +
          ((allNodes c.buckets).countP
            (fun n => test n.value && order.contains n.key)) *
            (c.evictedChans.count ch) := by
  intro order
  induction order with
  | nil =>
    intro c ms cnt c' ms' cnt' hfold hwf _
    obtain ⟨rfl, rfl, rfl⟩ : c = c' ∧ ms = ms' ∧ cnt = cnt' :=
      ⟨congrArg Prod.fst hfold, congrArg (fun x => x.2.1) hfold,
       congrArg (fun x => x.2.2) hfold⟩
    refine ⟨hwf, rfl, rfl, by simp, by simp, by simp, fun ch => by simp⟩
  | cons k rest ih =>
    intro c ms cnt c' ms' cnt' hfold hwf hnd
    rw [List.foldl_cons] at hfold
    have hndr : rest.Nodup := (List.nodup_cons.mp hnd).2
    cases hf : findNode c k with
    | none =>
      rw [show evictIfStep test (c, ms, cnt) k = (c, ms, cnt) by
        unfold evictIfStep; rw [hf]] at hfold
      obtain ⟨h1, h2, h3, h4, h5, h6, h7⟩ := ih c ms cnt hfold hwf hndr
      have hnok : ∀ m ∈ allNodes c.buckets, m.key ≠ k := by
        intro m hm hmk
        rw [findNode_eq_find?, List.find?_eq_none] at hf
        exact hf m hm (by simp [hmk])
      have hcong : ∀ m ∈ allNodes c.buckets,
          (test m.value && (k :: rest).contains m.key) =
          (test m.value && rest.contains m.key) := by
        intro m hm
        simp [List.contains_cons, hnok m hm]
      refine ⟨h1, h2, h3, ?_, ?_, ?_, ?_⟩
      · rw [h4]
        exact (List.filter_congr (fun m hm => by rw [hcong m hm])).symm
      · rw [h5, countP_congr2 hcong]
      · rw [h6, countP_congr2 hcong]
      · intro ch
        rw [h7 ch, countP_congr2 hcong]
    | some n =>
      cases htest : test n.value with
      | false =>
        rw [show evictIfStep test (c, ms, cnt) k = (c, ms, cnt) by
          unfold evictIfStep
          rw [hf]
          dsimp only
          rw [if_neg (by simp [htest])]] at hfold
        obtain ⟨h1, h2, h3, h4, h5, h6, h7⟩ := ih c ms cnt hfold hwf hndr
        have hcong : ∀ m ∈ allNodes c.buckets,
            (test m.value && (k :: rest).contains m.key) =
            (test m.value && rest.contains m.key) := by
          intro m hm
          by_cases hmk : m.key = k
          · have hmn : m = n := by
              have hu := find?_eq_of_mem_nodup (l := allNodes c.buckets)
                hwf.1.2.2.2 hm
              rw [hmk] at hu
              rw [findNode_eq_find?] at hf
              exact Option.some_inj.mp (hu.symm.trans hf)
            subst hmn
            rw [htest]
            simp
          · simp [List.contains_cons, hmk]
        refine ⟨h1, h2, h3, ?_, ?_, ?_, ?_⟩
        · rw [h4]
          exact (List.filter_congr (fun m hm => by rw [hcong m hm])).symm
        · rw [h5, countP_congr2 hcong]
        · rw [h6, countP_congr2 hcong]
        · intro ch
          rw [h7 ch, countP_congr2 hcong]
      | true =>
        rw [show evictIfStep test (c, ms, cnt) k =
            ((evictNode c n).1, ms ++ evictMsgs c n.value, cnt + 1) by
          unfold evictIfStep
          rw [hf]
          dsimp only
          rw [if_pos (by rw [htest])]
          rfl] at hfold
        have hwf1 := WF_evictNode hwf (findNode_mem hf).1
        obtain ⟨h1, h2, h3, h4, h5, h6, h7⟩ := ih _ _ _ hfold hwf1 hndr
        obtain ⟨hks1, hks2⟩ := kill_step test rest hwf.1.2.2.2 hf htest
        have hflat : allNodes (evictNode c n).1.buckets =
            (allNodes c.buckets).eraseP (fun m => m.key == k) := by
          rw [evictNode_fst_buckets, ← (findNode_mem hf).2,
            allNodes_deleteNodeIn]
        refine ⟨h1, by simpa using h2, by simpa using h3, ?_, ?_, ?_, ?_⟩
        · rw [h4, hflat, hks1]
        · rw [h5, hks2, hflat]
          omega
        · rw [h6, hks2, hflat]
          simp only [evictNode_fst_stats]
          omega
        · intro ch
          rw [h7 ch, hks2, hflat]
          simp only [evictNode_fst_evictedChans, List.countP_append,
            countP_evictMsgs, Nat.succ_mul]
          omega

theorem WF_evictIfStep {test : Value → Bool} {acc : Cache × List Msg × Nat}
    (h : WF acc.1) (k : Key) : WF (evictIfStep test acc k).1 := by
  unfold evictIfStep
  cases hf : findNode acc.1 k with
  | none => exact h
  | some n =>
    dsimp only
    split
    · exact WF_evictNode h (findNode_mem hf).1
    · exact h

theorem WF_evictIf_fold (test : Value → Bool) :
    ∀ (order : List Key) (acc : Cache × List Msg × Nat), WF acc.1 →
      WF (order.foldl (evictIfStep test) acc).1 := by
  intro order
  induction order with
  | nil => intro acc h; exact h
  | cons k rest ih =>
    intro acc h
    rw [List.foldl_cons]
    exact ih _ (WF_evictIfStep h k)

/-! ## Totality of `Insert` on well-formed caches within capacity -/

theorem lfu_isSome_of_len_pos {c : Cache} (hwf : WF c)
    (hpos : 0 < c.length) : (lfu c).isSome := by
  apply lfu_isSome_of_ne_nil
  intro hnil
  have h2 := hwf.2
  rw [hnil] at h2
  simp at h2
  omega

theorem Insert_total {c : Cache} (hwf : WF c) (hcap : 0 < c.capacity)
    (hlen : c.length ≤ c.capacity) (k : Key) (v : Value) :
    (Insert c k v).isSome := by
  cases hf : findNode c k with
  | none =>
    by_cases he : c.length = c.capacity
    · obtain ⟨n, hn⟩ := Option.isSome_iff_exists.mp
        (lfu_isSome_of_len_pos hwf (by omega))
      rw [Insert_absent_evict hf he hn]
      rfl
    · rw [Insert_absent_noevict hf he]
      rfl
  | some n =>
    rw [Insert_present hf (by omega)]
    rfl

theorem usageOfKey_insertNewNode_self {c : Cache} {k : Key} {v : Value}
    (hs : sentinelOK c.buckets) :
    usageOfKey (insertNewNode c k v) k = some 0 := by
  obtain ⟨fn, rest, hbs, hu⟩ := sentinelOK_iff.mp hs
  rw [usageOfKey_eq]
  simp only [insertNewNode_buckets, hbs, pushToSentinel]
  rw [usageIn_cons_pos (by
    rw [List.any_eq_true]
    exact ⟨⟨k, v⟩, by simp, by simp⟩)]
  dsimp only
  rw [hu]

theorem some_pair_eq {α β : Type} {a c : α} {b d : β}
    (h : (some (a, b) : Option (α × β)) = some (c, d)) : c = a ∧ d = b := by
  have h2 := Option.some_inj.mp h
  exact ⟨(congrArg Prod.fst h2).symm, (congrArg Prod.snd h2).symm⟩

/-! ## The specification claims -/

/-- C9: for a key not present in the cache, `Access` returns `(nil, false)`,
increments the miss counter, and changes nothing else — the resulting cache
is the original with only `stats.Misses` bumped. -/
theorem C9_access_miss_frame (c : Cache) (k : Key)
    (h : findNode c k = none) :
    (Access c k).2 = none ∧
    (Access c k).1 =
      { c with stats := { c.stats with Misses := c.stats.Misses + 1 } } := by
  rw [Access_miss h]
  exact ⟨rfl, rfl⟩

theorem C9_witness :
    findNode demo1 5 = none ∧ (Access demo1 5).2 = none :=
  ⟨by decide, (C9_access_miss_frame demo1 5 (by decide)).1⟩

/-- C10: `Delete` of an absent key returns `false` and leaves the cache —
including every statistics counter — completely unchanged, and performs no
channel send; the `Deletes` counter is incremented exactly when the key was
present. -/
theorem C10_delete_missing (c : Cache) (k : Key) :
    (findNode c k = none → Delete c k = (c, [], false)) ∧
    (∀ n, findNode c k = some n →
      (Delete c k).1.stats.Deletes = c.stats.Deletes + 1 ∧
      (Delete c k).2.2 = true) := by
  constructor
  · exact Delete_miss
  · intro n h
    rw [Delete_hit h]
    exact ⟨rfl, rfl⟩

theorem C10_witness :
    findNode demo1 5 = none ∧ Delete demo1 5 = (demo1, [], false) :=
  ⟨by decide, (C10_delete_missing demo1 5).1 (by decide)⟩

/-- C3: inserting a key that is already present (held by node `n`) first
evicts the existing item — the eviction counter increases by one and every
registered observer channel receives the old value — and then inserts the new
value at usage 0, so a subsequent `Access` of the key returns the new value
with `found = true`.  (Evict-then-reinsert, not in-place update.) -/
theorem C3_reinsert_evicts_old (c : Cache) (k : Key) (v : Value) (n : node)
    (hwf : WF c) (hlen : c.length ≤ c.capacity)
    (hf : findNode c k = some n) :
    (Insert c k v).isSome ∧
    ∀ c' m, Insert c k v = some (c', m) →
      m = c.evictedChans.map (fun ch => (ch, n.value)) ∧
      c'.stats.Evictions = c.stats.Evictions + 1 ∧
      (Access c' k).2 = some v ∧
      usageOfKey c' k = some 0 := by
  have hlen2 : c.length - 1 ≠ c.capacity := by omega
  have heq := Insert_present (v := v) hf hlen2
  refine ⟨by rw [heq]; rfl, ?_⟩
  intro c' m hins
  rw [heq] at hins
  obtain ⟨rfl, rfl⟩ := some_pair_eq hins
  have hwf1 := WF_evictNode hwf (findNode_mem hf).1
  have hk1 : k ∉ keysOf (evictNode c n).1.buckets := by
    simp only [evictNode_fst_buckets]
    rw [← (findNode_mem hf).2]
    exact not_mem_keys_deleteNodeIn_self hwf.1.2.2.2
  refine ⟨rfl, rfl, ?_, usageOfKey_insertNewNode_self hwf1.1.1⟩
  have hfind := findNode_insertNewNode_self (v := v) hwf1.1.1 hk1
  rw [Access_hit hfind]

theorem C3_witness :
    WF demo1 ∧ (Insert demo1 1 99).isSome :=
  ⟨by decide,
   (C3_reinsert_evicts_old demo1 1 99 ⟨1, 10⟩ (by decide) (by decide)
     (by decide)).1⟩

/-- C5: `Access` of a present key held by node `n` in the usage-`u` bucket
returns the stored value with `found = true`, increments the hit counter,
moves the item to the bucket of usage `u + 1` — reusing that bucket's item
list when the bucket exists and creating it otherwise, as witnessed by the
items of the usage-`(u+1)` bucket being exactly the old ones with `n`
appended at the tail — and keeps the structure well-formed (in particular the
chain stays strictly sorted by usage, which forces the target bucket to sit
immediately after the source bucket). -/
theorem C5_access_hit (c : Cache) (k : Key) (n : node) (u : Nat)
    (hwf : WF c) (hf : findNode c k = some n)
    (hu : usageOfKey c k = some u) :
    (Access c k).2 = some n.value ∧
    (Access c k).1.stats.Hits = c.stats.Hits + 1 ∧
    usageOfKey (Access c k).1 k = some (u + 1) ∧
    bucketNodes (Access c k).1 (u + 1) = bucketNodes c (u + 1) ++ [n] ∧
    findNode (Access c k).1 k = some n ∧
    WF (Access c k).1 := by
  have hwfA := WF_Access hwf k
  have hfacts := promote_bucket_facts hwf.1.2.1
    hwf.1.2.2.2 (by rwa [usageOfKey_eq] at hu)
    (by rwa [findNode_eq_find?] at hf)
  rw [Access_hit hf] at hwfA ⊢
  refine ⟨rfl, rfl, ?_, ?_, ?_, hwfA⟩
  · rw [usageOfKey_eq]
    exact hfacts.1
  · rw [bucketNodes_eq, bucketNodes_eq]
    exact hfacts.2
  · rw [findNode_eq_find?]
    exact find?_promote_self hwf.1.2.2.2 (by rwa [findNode_eq_find?] at hf)

theorem C5_witness :
    WF demo1 ∧ (Access demo1 3).2 = some 30 :=
  ⟨by decide,
   (C5_access_hit demo1 3 ⟨3, 30⟩ 0 (by decide) (by decide) (by decide)).1⟩

/-- C2: on a well-formed cache with positive capacity and `Len ≤ Cap`,
`Insert` always succeeds and preserves `Len ≤ Cap` (and well-formedness, so
the bound holds along every sequence of inserts); moreover, when the cache is
exactly at capacity and the key is absent, the insert evicts exactly one item
— the eviction counter increases by exactly one and the length is unchanged. -/
theorem C2_capacity_bound (c : Cache) (k : Key) (v : Value)
    (hwf : WF c) (hcap : 0 < c.capacity) (hlen : c.length ≤ c.capacity) :
    (Insert c k v).isSome ∧
    ∀ c' m, Insert c k v = some (c', m) →
      WF c' ∧ c'.capacity = c.capacity ∧ c'.length ≤ c'.capacity ∧
      (findNode c k = none → c.length = c.capacity →
        c'.stats.Evictions = c.stats.Evictions + 1 ∧
        c'.length = c.length) := by
  refine ⟨Insert_total hwf hcap hlen k v, ?_⟩
  intro c' m hins
  refine ⟨WF_Insert hwf hins, ?_, ?_, ?_⟩
  all_goals
    cases hf : findNode c k with
    | none =>
      by_cases he : c.length = c.capacity
      · obtain ⟨n, hn⟩ := Option.isSome_iff_exists.mp
          (lfu_isSome_of_len_pos hwf (by omega))
        rw [Insert_absent_evict (v := v) hf he hn] at hins
        obtain ⟨rfl, rfl⟩ := some_pair_eq hins
        first
        | rfl
        | (simp only [insertNewNode_length, insertNewNode_capacity,
            evictNode_fst_length, evictNode_fst_capacity]
           omega)
        | exact fun _ _ => ⟨rfl, by
            simp only [insertNewNode_length, evictNode_fst_length]
            omega⟩
      · rw [Insert_absent_noevict (v := v) hf he] at hins
        obtain ⟨rfl, rfl⟩ := some_pair_eq hins
        first
        | rfl
        | (simp only [insertNewNode_length, insertNewNode_capacity]
           omega)
    | some n =>
      rw [Insert_present (v := v) hf (by omega)] at hins
      obtain ⟨rfl, rfl⟩ := some_pair_eq hins
      first
      | rfl
      | (simp only [insertNewNode_length, insertNewNode_capacity,
          evictNode_fst_length, evictNode_fst_capacity]
         omega)
      | exact fun hco _ => by simp at hco

theorem C2_witness :
    WF demo1 ∧ (Insert demo1 4 40).isSome :=
  ⟨by decide,
   (C2_capacity_bound demo1 4 40 (by decide) (by decide) (by decide)).1⟩

/-- C8 counterexample: the construction-time zero-capacity check is *not* the
only failure a caller can encounter.  `New 1` succeeds, `Insert` succeeds,
`Resize 0` succeeds (shrinking the cache to capacity zero), and then the next
`Insert` of a fresh key panics (`lfu` on an empty cache, modelled as `none`),
refuting the claim for the operation sequence
`New 1; Insert 0 0; Resize 0; Insert 1 1`. -/
theorem C8_counterexample :
    New 0 = none ∧
    (((New 1).bind fun c => Insert c 0 0).bind fun p =>
      Resize p.1 0).isSome = true ∧
    ((((New 1).bind fun c => Insert c 0 0).bind fun p =>
      Resize p.1 0).bind fun q => Insert q.1 1 1) = none := by
  decide

/-- C8 (amended): construction with capacity zero fails fatally and the cache
is never created; and as long as the capacity is kept positive — i.e.
`Resize` is never called with a non-positive capacity — no public operation
on a well-formed cache within capacity fails: `Insert` always succeeds and
`Resize` to a positive capacity always succeeds (`Access`, `Delete`,
`EvictIf`, `Len`, `Cap`, `Statistics` are total by construction). -/
theorem C8_no_failure_while_positive (c : Cache) (hwf : WF c)
    (hcap : 0 < c.capacity) (hlen : c.length ≤ c.capacity) :
    New 0 = none ∧
    (∀ k v, (Insert c k v).isSome) ∧
    (∀ cap : Int, 0 < cap → (Resize c cap).isSome) :=
  ⟨rfl, fun k v => Insert_total hwf hcap hlen k v,
   fun _ hc => Resize_total hwf (le_of_lt hc)⟩

theorem C8_witness :
    WF demo1 ∧ (Resize demo1 1).isSome :=
  ⟨by decide,
   (C8_no_failure_while_positive demo1 (by decide) (by decide)
     (by decide)).2.2 1 (by decide)⟩

/-- C6: with an observer channel registered exactly once, every eviction —
capacity pressure or duplicate-key collision on `Insert`, `Resize`
shrinking, or an `EvictIf` match — sends the evicted value to it exactly
once: the number of messages the call delivers to the channel equals the
increase of the eviction counter across the call.  `Delete` never sends. -/
theorem C6_notification_completeness (c : Cache) (ch : Nat) (hwf : WF c)
    (hch : c.evictedChans.count ch = 1) :
    (∀ k v c' m, Insert c k v = some (c', m) →
      m.countP (fun x => x.1 == ch) + c.stats.Evictions =
        c'.stats.Evictions) ∧
    (∀ cap c' m, Resize c cap = some (c', m) →
      m.countP (fun x => x.1 == ch) + c.stats.Evictions =
        c'.stats.Evictions) ∧
    (∀ test order c' m cnt, order.Nodup →
      EvictIf c test order = (c', m, cnt) →
      m.countP (fun x => x.1 == ch) + c.stats.Evictions =
        c'.stats.Evictions) ∧
    (∀ k, (Delete c k).2.1 = []) := by
  refine ⟨?_, ?_, ?_, ?_⟩
  · intro k v c' m hins
    cases hf : findNode c k with
    | none =>
      by_cases he : c.length = c.capacity
      · cases hlfu : lfu c with
        | none => rw [Insert_absent_panic hf he hlfu] at hins; cases hins
        | some n =>
          rw [Insert_absent_evict hf he hlfu] at hins
          obtain ⟨rfl, rfl⟩ := some_pair_eq hins
          rw [countP_evictMsgs, hch]
          show 1 + c.stats.Evictions = c.stats.Evictions + 1
          omega
      · rw [Insert_absent_noevict hf he] at hins
        obtain ⟨rfl, rfl⟩ := some_pair_eq hins
        show List.countP _ [] + c.stats.Evictions = c.stats.Evictions
        simp
    | some n =>
      by_cases he : c.length - 1 = c.capacity
      · cases hlfu : lfu (evictNode c n).1 with
        | none => rw [Insert_present_panic hf he hlfu] at hins; cases hins
        | some n2 =>
          rw [Insert_present_evict hf he hlfu] at hins
          obtain ⟨rfl, rfl⟩ := some_pair_eq hins
          rw [List.countP_append, countP_evictMsgs, countP_evictMsgs]
          show c.evictedChans.count ch +
              (evictNode c n).1.evictedChans.count ch +
              c.stats.Evictions = c.stats.Evictions + 1 + 1
          rw [evictNode_fst_evictedChans, hch]
          omega
      · rw [Insert_present hf he] at hins
        obtain ⟨rfl, rfl⟩ := some_pair_eq hins
        rw [countP_evictMsgs, hch]
        show 1 + c.stats.Evictions = c.stats.Evictions + 1
        omega
  · intro cap c' m hres
    obtain ⟨_, _, _, _, _, e, he, hcount⟩ := Resize_sound hwf hres
    rw [hcount ch, hch, he]
    omega
  · intro test order c' m cnt hnd hev
    obtain ⟨_, _, _, _, _, h6, h7⟩ :=
      evictIf_loop test order c [] 0 hev hwf hnd
    rw [h7 ch, hch, h6]
    simp only [List.countP_nil, Nat.mul_one]
    omega
  · intro k
    cases hf : findNode c k with
    | none => rw [Delete_miss hf]
    | some n => rw [Delete_hit hf]

theorem C6_witness :
    demo1.evictedChans.count 7 = 1 ∧ (Delete demo1 2).2.1 = [] :=
  ⟨by decide,
   (C6_notification_completeness demo1 7 (by decide) (by decide)).2.2.2 2⟩

theorem eq_of_mem_keys_nodup {l : List node} (hnd : (l.map node.key).Nodup)
    {m n : node} (hm : m ∈ l) (hn : n ∈ l) (hk : m.key = n.key) : m = n := by
  have h1 := find?_eq_of_mem_nodup hnd hm
  have h2 := find?_eq_of_mem_nodup hnd hn
  rw [hk] at h1
  exact Option.some_inj.mp (h1.symm.trans h2)

/-- C7: `EvictIf test order`, ranging over the index in any iteration order
(any permutation of the live keys), evicts exactly the items whose value
satisfies the predicate, keeps every non-matching item, and returns the
number of evicted items — all three characterised by order-independent
expressions over the pre-state, so the result does not depend on the
iteration order. -/
theorem C7_evictIf_exact (c : Cache) (test : Value → Bool) (order : List Key)
    (hwf : WF c) (hperm : order.Perm (keysOf c.buckets)) :
    ∀ c' m cnt, EvictIf c test order = (c', m, cnt) →
      cnt = (allNodes c.buckets).countP (fun n => test n.value) ∧
      allNodes c'.buckets =
        (allNodes c.buckets).filter (fun n => !(test n.value)) ∧
      (∀ n ∈ allNodes c.buckets, test n.value = false →
        findNode c' n.key = some n) ∧
      (∀ n ∈ allNodes c.buckets, test n.value = true →
        findNode c' n.key = none) ∧
      WF c' := by
  intro c' m cnt hev
  have hnd : order.Nodup := hperm.symm.nodup hwf.1.2.2.2
  unfold EvictIf at hev
  obtain ⟨h1, _, _, h4, h5, _, _⟩ := evictIf_loop test order c [] 0 hev hwf hnd
  have hcont : ∀ n ∈ allNodes c.buckets, order.contains n.key = true := by
    intro n hn
    have hmem : n.key ∈ order := hperm.mem_iff.mpr (mem_keysOf_of_mem hn)
    exact List.elem_iff.mpr hmem
  have hcong : ∀ n ∈ allNodes c.buckets,
      (test n.value && order.contains n.key) = test n.value := by
    intro n hn
    rw [hcont n hn, Bool.and_true]
  have hflat : allNodes c'.buckets =
      (allNodes c.buckets).filter (fun n => !(test n.value)) := by
    rw [h4]
    exact List.filter_congr (fun n hn => by rw [hcong n hn])
  refine ⟨?_, hflat, ?_, ?_, h1⟩
  · rw [h5, countP_congr2 hcong]
    omega
  · intro n hn htest
    rw [findNode_eq_find?]
    refine find?_eq_of_mem_nodup h1.1.2.2.2 ?_
    rw [hflat, List.mem_filter]
    exact ⟨hn, by rw [htest]; rfl⟩
  · intro n hn htest
    rw [findNode_eq_find?, List.find?_eq_none]
    intro m hm hbeq
    have hm2 := hm
    rw [hflat, List.mem_filter] at hm2
    have hmn : m = n :=
      eq_of_mem_keys_nodup hwf.1.2.2.2 hm2.1 hn (by simpa using hbeq)
    rw [hmn, htest] at hm2
    simpa using hm2.2

theorem C7_witness :
    WF demo1 ∧ (EvictIf demo1 (fun v => v == 10) [2, 3, 1]).2.2 =
      (allNodes demo1.buckets).countP (fun n => n.value == 10) :=
  ⟨by decide,
   (C7_evictIf_exact demo1 (fun v => v == 10) [2, 3, 1] (by decide)
     (by decide) _ _ _ rfl).1⟩

/-- C4: after every complete public operation on a well-formed cache —
`Insert`, `Access`, `Delete`, `Resize`, `EvictIf` (the latter under any
iteration order) — the sentinel usage-0 bucket is still the head of the
frequency list and no bucket other than the sentinel has an empty item list
(an emptied non-sentinel bucket is destroyed within the operation). -/
theorem C4_no_empty_nonsentinel (c : Cache) (hwf : WF c) :
    (∀ k v c' m, Insert c k v = some (c', m) →
      sentinelOK c'.buckets ∧ noEmptyNonSentinel c'.buckets) ∧
    (∀ k, sentinelOK (Access c k).1.buckets ∧
      noEmptyNonSentinel (Access c k).1.buckets) ∧
    (∀ k, sentinelOK (Delete c k).1.buckets ∧
      noEmptyNonSentinel (Delete c k).1.buckets) ∧
    (∀ cap c' m, Resize c cap = some (c', m) →
      sentinelOK c'.buckets ∧ noEmptyNonSentinel c'.buckets) ∧
    (∀ test order,
      sentinelOK (EvictIf c test order).1.buckets ∧
      noEmptyNonSentinel (EvictIf c test order).1.buckets) := by
  refine ⟨?_, ?_, ?_, ?_, ?_⟩
  · intro k v c' m hins
    have h := WF_Insert hwf hins
    exact ⟨h.1.1, h.1.2.2.1⟩
  · intro k
    have h := WF_Access hwf k
    exact ⟨h.1.1, h.1.2.2.1⟩
  · intro k
    have h := WF_Delete hwf k
    exact ⟨h.1.1, h.1.2.2.1⟩
  · intro cap c' m hres
    have h := (Resize_sound hwf hres).1
    exact ⟨h.1.1, h.1.2.2.1⟩
  · intro test order
    have h := WF_evictIf_fold test order (c, [], 0) hwf
    exact ⟨h.1.1, h.1.2.2.1⟩

theorem C4_witness :
    WF demo1 ∧ (sentinelOK (Access demo1 3).1.buckets ∧
      noEmptyNonSentinel (Access demo1 3).1.buckets) :=
  ⟨by decide, (C4_no_empty_nonsentinel demo1 (by decide)).2.1 3⟩

/-- C1: every eviction chooses the node returned by `lfu`, which is the
*head* of the bucket with the globally minimum usage among non-empty buckets
— so the evicted item has minimum usage, and among equal minimum usage the
one at the head of the tier goes first.  Heads are oldest-in-tier because
every arrival in a tier appends at the tail: conjunct (iv) shows a promoted
item lands at the tail of the usage-`(u+1)` bucket (FIFO within a tier, not
LRU).  Conjunct (ii) shows a capacity-pressure `Insert` removes exactly the
`lfu` node and keeps every other item; conjunct (iii) shows a shrinking
`Resize` evicts the `lfu` node first. -/
theorem C1_eviction_order (c : Cache) (hwf : WF c) :
    (∀ n, lfu c = some n → n ∈ allNodes c.buckets ∧
      ∃ fn ∈ c.buckets, fn.nodes.head? = some n ∧
        ∀ fn2 ∈ c.buckets, fn2.nodes ≠ [] → fn.usage ≤ fn2.usage) ∧
    (∀ k v n c' m, findNode c k = none → c.length = c.capacity →
      lfu c = some n → Insert c k v = some (c', m) →
      findNode c' n.key = none ∧
      ∀ m2 ∈ allNodes c.buckets, m2.key ≠ n.key →
        findNode c' m2.key = some m2) ∧
    (∀ cap n c' m, cap < c.length → lfu c = some n →
      Resize c cap = some (c', m) → findNode c' n.key = none) ∧
    (∀ k n u, findNode c k = some n → usageOfKey c k = some u →
      bucketNodes (Access c k).1 (u + 1) = bucketNodes c (u + 1) ++ [n]) := by
  refine ⟨?_, ?_, ?_, ?_⟩
  · intro n hn
    exact ⟨lfu_mem hn, lfu_min_head hwf.1.2.1 hn⟩
  · intro k v n c' m hf hlen hlfu hins
    rw [Insert_absent_evict hf hlen hlfu] at hins
    obtain ⟨rfl, rfl⟩ := some_pair_eq hins
    have hwf1 := WF_evictNode hwf (lfu_mem hlfu)
    have hnk : n.key ≠ k := by
      intro hk
      rw [findNode_eq_none_iff] at hf
      exact hf (hk ▸ mem_keysOf_of_mem (lfu_mem hlfu))
    constructor
    · rw [findNode_insertNewNode_other hwf1.1.1 hnk,
        findNode_eq_none_iff]
      simp only [evictNode_fst_buckets]
      exact not_mem_keys_deleteNodeIn_self hwf.1.2.2.2
    · intro m2 hm2 hm2k
      have hm2nk : m2.key ≠ k := by
        intro hk
        rw [findNode_eq_none_iff] at hf
        exact hf (hk ▸ mem_keysOf_of_mem hm2)
      rw [findNode_insertNewNode_other hwf1.1.1 hm2nk,
        findNode_eq_find?]
      simp only [evictNode_fst_buckets]
      rw [allNodes_deleteNodeIn, eraseP_key_find?_other hm2k]
      exact find?_eq_of_mem_nodup hwf.1.2.2.2 hm2
  · intro cap n c' m hcaplen hlfu hres
    rw [Resize_eq] at hres
    have hlfu0 : lfu { c with capacity := cap } = some n := hlfu
    unfold resizeLoop at hres
    rw [if_pos (show Cache.capacity { c with capacity := cap } <
        Cache.length { c with capacity := cap } from hcaplen)] at hres
    rw [hlfu0] at hres
    dsimp only at hres
    have hwf1 : WF (evictNode { c with capacity := cap } n).1 :=
      WF_evictNode (WF_setCapacity hwf cap) (lfu_mem hlfu0)
    obtain ⟨_, _, _, _, hsub, _⟩ := resizeLoop_sound _ _ _ hres hwf1
    rw [findNode_eq_none_iff]
    intro hk
    have hmem : n.key ∈ keysOf (evictNode { c with capacity := cap }
        n).1.buckets := by
      rw [keysOf_eq] at hk ⊢
      obtain ⟨m2, hm2, hm2k⟩ := List.mem_map.mp hk
      rw [← hm2k]
      exact List.mem_map_of_mem node.key (hsub.subset hm2)
    revert hmem
    simp only [evictNode_fst_buckets]
    exact not_mem_keys_deleteNodeIn_self hwf.1.2.2.2
  · intro k n u hf hu
    have hfacts := promote_bucket_facts hwf.1.2.1
      hwf.1.2.2.2 (by rwa [usageOfKey_eq] at hu)
      (by rwa [findNode_eq_find?] at hf)
    rw [Access_hit hf, bucketNodes_eq, bucketNodes_eq]
    exact hfacts.2

theorem C1_witness :
    WF demo1 ∧ (⟨2, 20⟩ : node) ∈ allNodes demo1.buckets :=
  ⟨by decide,
   ((C1_eviction_order demo1 (by decide)).1 ⟨2, 20⟩ (by decide)).1⟩

end LFU
